import Mathlib

/-!
Shallow embedding of the structural markdown indexer and the position
resolver of a LaTeX theorem/equation referencer plugin.

Strings are modelled as `List Char`; JavaScript operations (`split('\n')`,
`trim`, `indexOf`, `slice`, the quote-marker regex, the tag regex) are
translated to explicit recursive functions on character lists.  The external
parsing helpers that live outside the indexed source (the theorem-callout
header parser, the LaTeX/markdown comment parsers, link inference, the file
title normalizer) are parameters of the model, bundled in `Ext`.
-/

namespace MdIndex

/-- Character strings, as lists of characters. -/
abbrev Str := List Char

/-- Characters treated as whitespace by the JavaScript `trim` and `\s`
(the ASCII part of the Unicode whitespace class). -/
def isWs (c : Char) : Bool :=
  c = ' ' || c = '\t' || c = '\n' || c = '\r' || c = '\x0b' || c = '\x0c'

/-- JavaScript `s.trim()`: strip whitespace from both ends. -/
def trimBoth (s : Str) : Str :=
  ((s.dropWhile isWs).reverse.dropWhile isWs).reverse

/-- JavaScript `s.split("\n")`: always returns at least one (possibly empty)
piece; a trailing newline yields a trailing empty piece. -/
def splitLines : Str → List Str
  | [] => [[]]
  | c :: cs =>
    match splitLines cs with
    | [] => [[]]
    | l :: ls => if c = '\n' then [] :: l :: ls else (c :: l) :: ls

/-- JavaScript `parts.join("\n")`. -/
def joinLines (ls : List Str) : Str :=
  (ls.intersperse ['\n']).join

/-- JavaScript `s.slice(a, b)` for `0 ≤ a ≤ b`. -/
def slice (s : Str) (a b : Nat) : Str :=
  (s.take b).drop a

/-- Number of line breaks in a string (`s.split("\n").length - 1`). -/
def countNl (s : Str) : Nat := s.count '\n'

/-- The position of the first occurrence of `pat` in `l`, scanning left to
right. -/
def firstIdx (pat : Str) : Str → Option Nat
  | [] => if pat.isPrefixOf ([] : Str) then some 0 else none
  | c :: cs =>
    if pat.isPrefixOf (c :: cs) then some 0
    else (firstIdx pat cs).map (fun j => j + 1)

/-- JavaScript `s.indexOf(pat, i)` for a non-empty pattern: the least
position `j ≥ i` at which `pat` occurs in `s`, if any. -/
def idxOfFrom (s pat : Str) (i : Nat) : Option Nat :=
  if s.length < i then none
  else (firstIdx pat (s.drop i)).map (fun j => j + i)

/-! ## Callout math extractor (`findDisplayMathInCalloutBlock`) -/

/-- The display-math delimiter `$$`. -/
def dd : Str := ['$', '$']

/-- One nested display-math region found inside a callout block:
document line span, document offset span, and the cleaned LaTeX text. -/
structure MathRegion where
  lineStart : Nat
  lineEnd : Nat
  startOffset : Nat
  endOffset : Nat
  mathText : Str
deriving DecidableEq, Repr

/-- The regex replace `line.replace(/^>\s?/, '')`: drop one leading `>` and
at most one following whitespace character. -/
def stripQuoteMarker (line : Str) : Str :=
  match line with
  | '>' :: rest =>
    match rest with
    | c :: rest2 => if isWs c then rest2 else rest
    | [] => []
  | _ => line

/-- The cleaning applied to the text between the two delimiters: trim, strip
a leading quote marker from every line, re-join, trim again. -/
def cleanMathText (between : Str) : Str :=
  trimBoth (joinLines ((splitLines (trimBoth between)).map stripQuoteMarker))

/-- The region record produced for a matched delimiter pair at local
positions `startDelim` and `endDelim`. -/
def mkRegion (blockText : Str) (blockStartLine blockStartOffset : Nat)
    (startDelim endDelim : Nat) : MathRegion :=
  { lineStart := blockStartLine + countNl (blockText.take startDelim),
    lineEnd := blockStartLine + countNl (blockText.take endDelim),
    startOffset := blockStartOffset + startDelim,
    endOffset := blockStartOffset + (endDelim + 2),
    mathText := cleanMathText (slice blockText (startDelim + 2) endDelim) }

/-- The scanning loop of `findDisplayMathInCalloutBlock`, starting the
forward search at position `i` of the callout's raw text.  The first fuel
argument only bounds the recursion depth; the search position advances by
at least four each iteration, so any fuel of at least
`blockText.length + 1 - i` gives the loop's exact behavior. -/
def scanDisplayMathAux (blockText : Str) (blockStartLine blockStartOffset : Nat) :
    Nat → Nat → List MathRegion
  | 0, _ => []
  | fuel + 1, i =>
    match idxOfFrom blockText dd i with
    | none => []
    | some startDelim =>
      match idxOfFrom blockText dd (startDelim + 2) with
      | none => []
      | some endDelim =>
        mkRegion blockText blockStartLine blockStartOffset startDelim endDelim ::
          scanDisplayMathAux blockText blockStartLine blockStartOffset fuel (endDelim + 2)

/-- The scan from position `i`, with enough fuel for the whole text. -/
def scanDisplayMath (blockText : Str) (blockStartLine blockStartOffset i : Nat) :
    List MathRegion :=
  scanDisplayMathAux blockText blockStartLine blockStartOffset (blockText.length + 1) i

/-- Find all display math (`$$...$$`) in callout block content and return
their positions and math text. -/
def findDisplayMathInCalloutBlock (blockText : Str)
    (blockStartLine blockStartOffset : Nat) : List MathRegion :=
  scanDisplayMath blockText blockStartLine blockStartOffset 0

/-! ## Data model -/

/-- A full source location: line, column, character offset. -/
structure Loc where
  line : Nat
  col : Nat
  offset : Nat
deriving DecidableEq, Repr

/-- A start/end pair of full locations (the `Pos` of the metadata cache).
The source's `end` field is called `stop` here (`end` is a Lean keyword). -/
structure Pos where
  start : Loc
  stop : Loc
deriving DecidableEq, Repr

/-- An inclusive line span `{start, end}`; the source's `end` field is
called `stop` here. -/
structure Span where
  start : Nat
  stop : Nat
deriving DecidableEq, Repr

/-- Theorem-callout settings parsed from the callout header line; `legacy`
marks the v1 compatibility dialect. -/
structure MinimalTheoremCalloutSettings where
  kind : Str
  legacy : Bool
deriving DecidableEq, Repr

/-- Modelled from the spec: a `Link` (from the expression module, outside
the indexed source) is a normalized reference target plus optional display
text; equality is structural. -/
structure Link where
  target : Str
  displayText : Option Str
deriving DecidableEq, Repr

/-- Structural link equality (`Link.equals`). -/
def linkEquals (a b : Link) : Bool := a = b

/-- A heading record from the pre-parsed metadata. -/
structure HeadingCache where
  heading : Str
  level : Nat
  position : Pos
deriving DecidableEq, Repr

/-- A raw sub-parsed block record from the pre-parsed metadata. -/
structure SectionCache where
  type : Str
  position : Pos
  id : Option Str
deriving DecidableEq, Repr

/-- A link occurrence from the pre-parsed metadata. -/
structure LinkCache where
  link : Str
  position : Pos
deriving DecidableEq, Repr

/-- A frontmatter link occurrence (no position). -/
structure FrontmatterLinkCache where
  link : Str
  displayText : Option Str
deriving DecidableEq, Repr

/-- The externally supplied pre-parsed outline for one document. Missing
lists (`?? []` in the source) are modelled as empty lists. -/
structure CachedMetadata where
  headings : List HeadingCache
  sections : List SectionCache
  links : List LinkCache
  frontmatterLinks : List FrontmatterLinkCache
deriving DecidableEq, Repr

/-- The variant payload of a block: generic, equation, or theorem-callout. -/
inductive BlockVariant where
  | generic (type : Str)
  | equation (manualTag : Option Str) (mathText : Str)
      (label display : Option Str)
  | theoremCallout (settings : MinimalTheoremCalloutSettings)
      (label display : Option Str) (main : Bool) (v1 : Bool)
deriving DecidableEq, Repr

/-- A block of the document model (`JsonMarkdownBlock` and its variants). -/
structure JsonMarkdownBlock where
  ordinal : Nat
  position : Span
  pos : Pos
  links : List Link
  blockId : Option Str
  variant : BlockVariant
deriving DecidableEq, Repr

/-- A section of the document model (`JsonMarkdownSection`). -/
structure JsonMarkdownSection where
  ordinal : Nat
  title : Str
  level : Nat
  position : Span
  blocks : List JsonMarkdownBlock
  links : List Link
deriving DecidableEq, Repr

/-- The document model of one page (`JsonMarkdownPage`). -/
structure JsonMarkdownPage where
  path : Str
  links : List Link
  sections : List JsonMarkdownSection
  extension : Str
  position : Span
deriving DecidableEq, Repr

/-! ## The sorted interval store (the `BTree` of the source)

Modelled as an association list kept strictly sorted by key; all trees in
the model are built by `btSet` starting from `[]`, which maintains
sortedness. -/

/-- The line-keyed sorted map. -/
abbrev Btree (V : Type) := List (Nat × V)

/-- `tree.set(k, v)`: insert, or replace an existing entry with the same
key. -/
def btSet {V : Type} (t : Btree V) (k : Nat) (v : V) : Btree V :=
  match t with
  | [] => [(k, v)]
  | (k', v') :: rest =>
    if k < k' then (k, v) :: (k', v') :: rest
    else if k = k' then (k, v) :: rest
    else (k', v') :: btSet rest k v

/-- `tree.getPairOrNextLower(k)`: the entry with the greatest key `≤ k`
(on a sorted tree). -/
def btGetPairOrNextLower {V : Type} : Btree V → Nat → Option (Nat × V)
  | [], _ => none
  | (k', v') :: rest, k =>
    if k' ≤ k then
      match btGetPairOrNextLower rest k with
      | some p => some p
      | none => some (k', v')
    else none

/-- `tree.getPairOrNextHigher(k)`: the entry with the least key `≥ k`
(on a sorted tree). -/
def btGetPairOrNextHigher {V : Type} : Btree V → Nat → Option (Nat × V)
  | [], _ => none
  | (k', v') :: rest, k =>
    if k ≤ k' then some (k', v') else btGetPairOrNextHigher rest k

/-- `tree.values()` / `tree.valuesArray()`: the values in key order. -/
def btValues {V : Type} (t : Btree V) : List V := t.map Prod.snd

/-- In-place mutation of the entry stored at key `k` (object aliasing in
the source: mutating the found value mutates the stored one). -/
def btModify {V : Type} (t : Btree V) (k : Nat) (f : V → V) : Btree V :=
  t.map (fun p => if p.1 = k then (p.1, f p.2) else p)

/-- Exact-key lookup. -/
def btLookup {V : Type} : Btree V → Nat → Option V
  | [], _ => none
  | (k', v') :: rest, k => if k = k' then some v' else btLookup rest k

/-! ## External parsing helpers

The indexer imports several helpers from modules that are not part of the
indexed source (`utils/parse`, `index/utils/normalizers`,
`index/expression/link`).  The model is parametric in them. -/

/-- Modelled from the spec: the bundle of external parsing helpers.
`readTheoremCalloutSettings` parses a callout header line into theorem-kind
settings; `trimMathText` trims the raw LaTeX source; `parseLatexComment`
extracts the comment part of a LaTeX line (if any); `parseYamlLike` parses
`key: value` pairs; `parseMarkdownComment` extracts `%% ... %%` comment
lines; `getFileTitle` derives a title from the document's own name;
`inferLink` normalizes a raw link text (plus optional display text) into a
`Link`. -/
structure Ext where
  readTheoremCalloutSettings : Str → Bool → Option MinimalTheoremCalloutSettings
  trimMathText : Str → Str
  parseLatexComment : Str → Option Str
  parseYamlLike : Str → List (Str × Str)
  parseMarkdownComment : Str → List Str
  getFileTitle : Str → Str
  inferLink : Str → Option Str → Link

/-- A JavaScript record built by successive `Object.assign`s: pairs kept in
write order, later writes overriding earlier ones. -/
abbrev JsRecord := List (Str × Str)

/-- Read a key from a record: the last write wins. -/
def recGet (r : JsRecord) (k : Str) : Option Str :=
  (r.reverse.find? (fun p => p.1 = k)).map Prod.snd

/-! ## Manual tag extraction (`mathText.match(/\\tag\{(.*)\}/)`) -/

/-- The literal part of the tag regex: a backslash, `tag`, opening brace. -/
def tagCmd : Str := ['\\', 't', 'a', 'g', '{']

/-- The greedy capture of `(.*)\}` restricted to one line: if the line
contains a closing brace, everything up to the last closing brace. -/
def lastBraceCapture (line : Str) : Option Str :=
  if '}' ∈ line then
    some (line.take (line.length - 1 - line.reverse.indexOf '}'))
  else none

/-- The leftmost-match scan of the tag regex: at each position, the pattern
matches iff the text starts with the tag command there and a closing brace
occurs later on the same line (`.` does not cross line breaks); the capture
is greedy. -/
def extractTag : Str → Option Str
  | [] => none
  | c :: rest =>
    if tagCmd.isPrefixOf (c :: rest) then
      match lastBraceCapture (((c :: rest).drop 5).takeWhile (fun ch => ch ≠ '\n')) with
      | some cap => some cap
      | none => extractTag rest
    else extractTag rest

/-! ## Block construction -/

/-- `data.slice(block.position.start.offset, block.position.end.offset)`. -/
def getBlockText (data : Str) (block : SectionCache) : Str :=
  slice data block.position.start.offset block.position.stop.offset

/-- Check if the given line range is all empty. Start is inclusive, end
exclusive. -/
def emptylines (lines : List Str) (start stop : Nat) : Bool :=
  (List.range' start (stop - start)).all
    (fun i => (trimBoth (lines.getD i [])).isEmpty)

/-- Metadata parsed from LaTeX comments: for each line of the math text,
if it has a comment, merge the `key: value` pairs parsed from it. -/
def latexMeta (ext : Ext) (mathText : Str) : JsRecord :=
  (splitLines mathText).foldl
    (fun md line =>
      match ext.parseLatexComment line with
      | none => md
      | some comment => md ++ ext.parseYamlLike comment) []

/-- The equation block built for a top-level `math` block. -/
def mathBlock (ext : Ext) (markdown : Str) (block : SectionCache)
    (ordinal : Nat) : JsonMarkdownBlock :=
  let mathText := ext.trimMathText (getBlockText markdown block)
  let md := latexMeta ext mathText
  { ordinal := ordinal,
    position := ⟨block.position.start.line, block.position.stop.line⟩,
    pos := block.position,
    links := [],
    blockId := block.id,
    variant := .equation (extractTag mathText) mathText
      (recGet md "label".toList) (recGet md "display".toList) }

/-- The equation block synthesized for one display-math region nested in
a theorem callout. -/
def calloutEqBlock (ext : Ext) (eq : MathRegion) (ordinal : Nat) :
    JsonMarkdownBlock :=
  let md := latexMeta ext eq.mathText
  { ordinal := ordinal,
    position := ⟨eq.lineStart, eq.lineEnd⟩,
    pos := { start := ⟨eq.lineStart, 0, eq.startOffset⟩,
             stop := ⟨eq.lineEnd, 0, eq.endOffset⟩ },
    links := [],
    blockId := none,
    variant := .equation (extractTag eq.mathText) eq.mathText
      (recGet md "label".toList) (recGet md "display".toList) }

/-- Metadata parsed from markdown comments in a callout body (the lines
after the header up to the block end): strip a leading `>`, skip blanks, a
bare `main` is sugar for `main: true`, otherwise parse `key: value`. -/
def calloutMeta (ext : Ext) (lines : List Str) (start stop : Nat) : JsRecord :=
  let contentText := joinLines ((lines.drop (start + 1)).take (stop + 1 - (start + 1)))
  (ext.parseMarkdownComment contentText).foldl
    (fun md line =>
      let line2 := if line.head? = some '>' then trimBoth (line.drop 1) else line
      if line2.isEmpty then md
      else if line2 = "main".toList then md ++ [("main".toList, "true".toList)]
      else md ++ ext.parseYamlLike line2) []

/-- The theorem-callout block built for a callout whose header parses
as theorem settings. -/
def theoremBlock (ext : Ext) (lines : List Str) (block : SectionCache)
    (settings : MinimalTheoremCalloutSettings) (v1 : Bool) (ordinal : Nat) :
    JsonMarkdownBlock :=
  let md := calloutMeta ext lines block.position.start.line block.position.stop.line
  { ordinal := ordinal,
    position := ⟨block.position.start.line, block.position.stop.line⟩,
    pos := block.position,
    links := [],
    blockId := block.id,
    variant := .theoremCallout settings
      (recGet md "label".toList) (recGet md "display".toList)
      (recGet md "main".toList = some "true".toList) v1 }

/-- The generic block built for every other non-heading block. -/
def genericBlock (block : SectionCache) (ordinal : Nat) : JsonMarkdownBlock :=
  { ordinal := ordinal,
    position := ⟨block.position.start.line, block.position.stop.line⟩,
    pos := block.position,
    links := [],
    blockId := block.id,
    variant := .generic block.type }

/-- The running state of the block pass: the line-keyed block store and the
next document-wide ordinal. -/
structure BlocksState where
  blocks : Btree JsonMarkdownBlock
  blockOrdinal : Nat
deriving DecidableEq, Repr

/-- One iteration of the block loop of `markdownImport`: skip headings;
classify `math` blocks as equations; for callouts whose header parses
as theorem settings, first synthesize one equation block per nested
display-math region (each consuming the next ordinal), then store
the theorem-callout block itself (consuming the following ordinal);
everything else is a generic block. -/
def processBlock (ext : Ext) (markdown : Str) (lines : List Str)
    (excludeExample : Bool) (st : BlocksState) (block : SectionCache) :
    BlocksState :=
  if block.type = "heading".toList then st
  else
    let start := block.position.start.line
    let settings :=
      if block.type = "callout".toList then
        ext.readTheoremCalloutSettings (lines.getD start []) excludeExample
      else none
    let v1 := (settings.map (fun s => s.legacy)).getD false
    if block.type = "math".toList then
      { blocks := btSet st.blocks start (mathBlock ext markdown block st.blockOrdinal),
        blockOrdinal := st.blockOrdinal + 1 }
    else
      match settings with
      | some s =>
        let eqs := findDisplayMathInCalloutBlock (getBlockText markdown block)
          start block.position.start.offset
        let st2 := eqs.foldl
          (fun acc eq =>
            { blocks := btSet acc.blocks eq.lineStart (calloutEqBlock ext eq acc.blockOrdinal),
              blockOrdinal := acc.blockOrdinal + 1 }) st
        { blocks := btSet st2.blocks start (theoremBlock ext lines block s v1 st2.blockOrdinal),
          blockOrdinal := st2.blockOrdinal + 1 }
      | none =>
        { blocks := btSet st.blocks start (genericBlock block st.blockOrdinal),
          blockOrdinal := st.blockOrdinal + 1 }

/-- The whole block pass, over the sub-parsed block list in order. -/
def buildBlocks (ext : Ext) (markdown : Str) (lines : List Str)
    (excludeExample : Bool) (sectionCaches : List SectionCache) : BlocksState :=
  sectionCaches.foldl (processBlock ext markdown lines excludeExample)
    { blocks := [], blockOrdinal := 1 }

/-! ## Section building -/

/-- Stable insertion of a heading into a list sorted by start line
(`metaheadings.sort((a, b) => a.position.start.line - b.position.start.line)`). -/
def insertHeading (h : HeadingCache) : List HeadingCache → List HeadingCache
  | [] => [h]
  | h2 :: rest =>
    if h.position.start.line < h2.position.start.line then h :: h2 :: rest
    else h2 :: insertHeading h rest

/-- Sort the heading list by start line. -/
def sortHeadings : List HeadingCache → List HeadingCache
  | [] => []
  | h :: rest => insertHeading h (sortHeadings rest)

/-- The heading loop of `markdownImport`: heading `index` (0-based) becomes
the section with ordinal `index + 1`, spanning from its own start line to
the line before the next heading, the last heading spanning to the last
line of the file. -/
def headingSectionsAux (numLines : Nat) :
    List HeadingCache → Nat → Btree JsonMarkdownSection → Btree JsonMarkdownSection
  | [], _, t => t
  | h :: rest, index, t =>
    let start := h.position.start.line
    let e :=
      match rest with
      | [] => numLines - 1
      | h2 :: _ => h2.position.start.line - 1
    headingSectionsAux numLines rest (index + 1)
      (btSet t start
        { ordinal := index + 1, title := h.heading, level := h.level,
          position := ⟨start, e⟩, blocks := [], links := [] })

/-- Build the section store: the heading sections, plus possibly an
implicit leading section (ordinal 0, level 1, title derived from the
document's own name) when there is content before the first heading, or
anywhere in a heading-less document. -/
def buildSections (ext : Ext) (path : Str) (lines : List Str)
    (metaheadings : List HeadingCache) (empty : Bool) :
    Btree JsonMarkdownSection :=
  let t := headingSectionsAux lines.length (sortHeadings metaheadings) 0 []
  match btGetPairOrNextHigher t 0 with
  | none =>
    if !empty then
      btSet t 0
        { ordinal := 0, title := ext.getFileTitle path, level := 1,
          position := ⟨0, lines.length⟩, blocks := [], links := [] }
    else t
  | some fs =>
    if !emptylines lines 0 fs.2.position.start then
      btSet t 0
        { ordinal := 0, title := ext.getFileTitle path, level := 1,
          position := ⟨0, fs.2.position.start - 1⟩, blocks := [], links := [] }
    else t

/-! ## Links -/

/-- Mutably add the given link to the list only if it is not already
present (deduplication by structural link equality). -/
def addLink (target : List Link) (incoming : Link) : List Link :=
  if target.any (fun v => linkEquals v incoming) then target
  else target ++ [incoming]

/-- The state of the link pass: the page link list and the two stores whose
entries' link lists are mutated through the tree. -/
structure LinkState where
  pageLinks : List Link
  sections : Btree JsonMarkdownSection
  blocks : Btree JsonMarkdownBlock
deriving DecidableEq, Repr

/-- `const section = sections.getPairOrNextLower(line); if (section &&
section[1].$position.end >= line) addLink(section[1].$links, link)`: the
mutation of the found section happens through the store. -/
def addLinkToSection (t : Btree JsonMarkdownSection) (line : Nat) (link : Link) :
    Btree JsonMarkdownSection :=
  match btGetPairOrNextLower t line with
  | some sp =>
    if line ≤ sp.2.position.stop then
      btModify t sp.1 (fun s => { s with links := addLink s.links link })
    else t
  | none => t

/-- `const block = blocks.getPairOrNextLower(line); if (block &&
block[1].$position.end >= line) addLink(block[1].$links, link)`. -/
def addLinkToBlockLower (t : Btree JsonMarkdownBlock) (line : Nat) (link : Link) :
    Btree JsonMarkdownBlock :=
  match btGetPairOrNextLower t line with
  | some bp =>
    if line ≤ bp.2.position.stop then
      btModify t bp.1 (fun b => { b with links := addLink b.links link })
    else t
  | none => t

/-- `const listItem = blocks.getPairOrNextHigher(line); if (listItem &&
listItem[1].$position.end >= line) addLink(listItem[1].$links, link)`. -/
def addLinkToBlockHigher (t : Btree JsonMarkdownBlock) (line : Nat) (link : Link) :
    Btree JsonMarkdownBlock :=
  match btGetPairOrNextHigher t line with
  | some bp =>
    if line ≤ bp.2.position.stop then
      btModify t bp.1 (fun b => { b with links := addLink b.links link })
    else t
  | none => t

/-- One iteration of the link loop of `markdownImport`: add the inferred
link to the page list, to the section found at-or-below its line (when that
section's end is at or after the line), to the block found at-or-below its
line, and to the block found at-or-above its line (the list-item
association), each insertion deduplicated independently.  The at-or-above
lookup runs on the store as already updated by the at-or-below insertion,
mirroring the object aliasing of the source. -/
def processLink (ext : Ext) (st : LinkState) (linkdef : LinkCache) : LinkState :=
  let link := ext.inferLink linkdef.link none
  let line := linkdef.position.start.line
  { pageLinks := addLink st.pageLinks link,
    sections := addLinkToSection st.sections line link,
    blocks := addLinkToBlockHigher (addLinkToBlockLower st.blocks line link) line link }

/-- The whole body-link pass. -/
def processLinks (ext : Ext) (st : LinkState) (linkdefs : List LinkCache) :
    LinkState :=
  linkdefs.foldl (processLink ext) st

/-- The frontmatter-link pass: frontmatter links are only assigned to the
page. -/
def processFrontmatterLinks (ext : Ext) (pageLinks : List Link)
    (fls : List FrontmatterLinkCache) : List Link :=
  fls.foldl (fun acc fl => addLink acc (ext.inferLink fl.link fl.displayText)) pageLinks

/-- Add blocks to sections: each block goes into the section found
at-or-below its start line, provided that section's end is at or after the
block's end. -/
def assignBlocks (sections : Btree JsonMarkdownSection)
    (blocks : Btree JsonMarkdownBlock) : Btree JsonMarkdownSection :=
  (btValues blocks).foldl
    (fun secs b =>
      match btGetPairOrNextLower secs b.position.start with
      | some sp =>
        if b.position.stop ≤ sp.2.position.stop then
          btModify secs sp.1 (fun s => { s with blocks := s.blocks ++ [b] })
        else secs
      | none => secs) sections

/-! ## The full indexer -/

/-- Given the raw source and pre-parsed metadata for a markdown file,
return the full page model (`markdownImport`).

One presentational deviation from the imperative source: the source pushes
block objects into sections before processing links and relies on object
aliasing to make the later per-block link insertions visible inside the
sections; this pure model processes links first and then assigns the final
block values to sections, which yields the same page. -/
def markdownImport (ext : Ext) (path : Str) (markdown : Str)
    (metadata : CachedMetadata) (excludeExample : Bool) : JsonMarkdownPage :=
  let lines := splitLines markdown
  let empty := !(lines.any (fun line => !(trimBoth line).isEmpty))
  let sections := buildSections ext path lines metadata.headings empty
  let bst := buildBlocks ext markdown lines excludeExample metadata.sections
  let lst := processLinks ext
    { pageLinks := [], sections := sections, blocks := bst.blocks } metadata.links
  let links := processFrontmatterLinks ext lst.pageLinks metadata.frontmatterLinks
  let sectionsFinal := assignBlocks lst.sections lst.blocks
  { path := path,
    links := links,
    sections := btValues sectionsFinal,
    extension := "md".toList,
    position := ⟨0, lines.length⟩ }

/-! ## Position resolver: by-ordinal-within-container mode -/

/-- Whether a block is an equation block. -/
def isEquationBlock (b : JsonMarkdownBlock) : Bool :=
  match b.variant with
  | .equation _ _ _ _ => true
  | _ => false

/-- Modelled from the spec: `page.getEquationBlocksInRange(start, end)`
fetches all equation blocks whose spans fall within the given span
(inclusive), ordered by start line (the block store is keyed by start
line, so key order is start-line order). -/
def getEquationBlocksInRange (blocks : Btree JsonMarkdownBlock)
    (start stop : Nat) : List JsonMarkdownBlock :=
  (btValues blocks).filter
    (fun b => isEquationBlock b && start ≤ b.position.start && b.position.stop ≤ stop)

/-- The by-ordinal-within-container resolution step shared by the live
preview and the reading view: given the enclosing theorem-callout block and
the rendered element's ordinal position among sibling math elements in the
same rendered container, select the equation block
(`equationsInRange[ourIndex] ?? null`). -/
def resolveByOrdinalInCallout (blocks : Btree JsonMarkdownBlock)
    (callout : JsonMarkdownBlock) (ourIndex : Nat) : Option JsonMarkdownBlock :=
  (getEquationBlocksInRange blocks callout.position.start callout.position.stop).get? ourIndex

/-! ## A concrete instantiation of the external helpers

Used to evaluate the model on concrete documents: callout headers starting
with `> [!thm]` parse as theorem settings, the math trimmer strips
surrounding whitespace and dollar signs, comment parsing yields nothing,
titles and links pass through unchanged. -/

/-- A simple concrete external-helper bundle for concrete evaluations. -/
def toyExt : Ext where
  readTheoremCalloutSettings := fun line _ =>
    if "> [!thm]".toList.isPrefixOf line then some ⟨"thm".toList, false⟩ else none
  trimMathText := fun s =>
    trimBoth ((((trimBoth s).dropWhile (fun c => c = '$')).reverse.dropWhile
      (fun c => c = '$')).reverse)
  parseLatexComment := fun _ => none
  parseYamlLike := fun _ => []
  parseMarkdownComment := fun _ => []
  getFileTitle := fun p => p
  inferLink := fun t d => ⟨t, d⟩

/-! ## Auxiliary definitions used only in statements -/

/-- The cleaning of the nested math text as the specification words it:
strip a leading quote marker from every line of the text strictly between
the delimiters and trim the surrounding whitespace — without the initial
trim the implementation performs before splitting into lines.  Used to
compare the specified text against the recorded one. -/
def claimedCleanMathText (between : Str) : Str :=
  trimBoth (joinLines ((splitLines between).map stripQuoteMarker))

/-- The identifying shape of a section: ordinal, title, level, position
(everything except the mutable `blocks` and `links` lists). -/
def secShape (s : JsonMarkdownSection) : Nat × Str × Nat × Span :=
  (s.ordinal, s.title, s.level, s.position)

/-- The shapes of the heading-derived sections, in heading order: heading
`index` yields ordinal `index + 1`, its own title and level, and a span
from its start line to the line before the next heading (the last heading
spanning to the last line of the file). -/
def headingTuples (numLines : Nat) : List HeadingCache → Nat → List (Nat × Str × Nat × Span)
  | [], _ => []
  | h :: rest, index =>
    let start := h.position.start.line
    let e :=
      match rest with
      | [] => numLines - 1
      | h2 :: _ => h2.position.start.line - 1
    (index + 1, h.heading, h.level, ⟨start, e⟩) ::
      headingTuples numLines rest (index + 1)

/-- Evolution of one section entry during the link pass: the key, and the
section's identifying position, are unchanged, and its link list only
grows. -/
def secRel (p q : Nat × JsonMarkdownSection) : Prop :=
  p.1 = q.1 ∧ p.2.position = q.2.position ∧ ∀ x ∈ p.2.links, x ∈ q.2.links

/-- Evolution of one block entry during the link pass: the key, and the
block's identifying position, are unchanged, and its link list only
grows. -/
def blkRel (p q : Nat × JsonMarkdownBlock) : Prop :=
  p.1 = q.1 ∧ p.2.position = q.2.position ∧ ∀ x ∈ p.2.links, x ∈ q.2.links

/-- The heading-derived section entries as a plain keyed list: the store
built by the heading loop on a sorted heading list, written out. -/
def headingPairs (numLines : Nat) : List HeadingCache → Nat → List (Nat × JsonMarkdownSection)
  | [], _ => []
  | h :: rest, index =>
    let start := h.position.start.line
    let e :=
      match rest with
      | [] => numLines - 1
      | h2 :: _ => h2.position.start.line - 1
    (start, { ordinal := index + 1, title := h.heading, level := h.level,
              position := ⟨start, e⟩, blocks := [], links := [] }) ::
      headingPairs numLines rest (index + 1)

/-! # Theorems

First the scanner's step lemmas, then the claims. -/

theorem firstIdx_spec {pat : Str} : ∀ {l : Str} {j : Nat},
    firstIdx pat l = some j → pat.isPrefixOf (l.drop j) ∧ j + pat.length ≤ l.length := by
  intro l
  induction l with
  | nil =>
    intro j h
    rw [firstIdx] at h
    split at h
    · rename_i hp
      simp only [Option.some.injEq] at h
      subst h
      refine ⟨hp, ?_⟩
      have := (List.isPrefixOf_iff_prefix.mp hp).length_le
      simpa using this
    · simp at h
  | cons c cs ih =>
    intro j h
    rw [firstIdx] at h
    split at h
    · rename_i hp
      simp only [Option.some.injEq] at h
      subst h
      refine ⟨hp, ?_⟩
      have := (List.isPrefixOf_iff_prefix.mp hp).length_le
      simpa using this
    · simp only [Option.map_eq_some'] at h
      obtain ⟨j', hj', rfl⟩ := h
      have := ih hj'
      simp only [List.drop_succ_cons, List.length_cons]
      exact ⟨this.1, by omega⟩

/-- A successful `indexOf` result is at or after the start position, the
pattern really occurs there, and it fits inside the string. -/
theorem idxOfFrom_spec {s pat : Str} {i j : Nat}
    (h : idxOfFrom s pat i = some j) :
    i ≤ j ∧ j + pat.length ≤ s.length ∧ pat.isPrefixOf (s.drop j) := by
  rw [idxOfFrom] at h
  split at h
  · simp at h
  · rename_i hle
    simp only [Option.map_eq_some'] at h
    obtain ⟨j', hj', rfl⟩ := h
    have hs := firstIdx_spec hj'
    have hlen : (s.drop i).length = s.length - i := by simp
    rw [List.drop_drop] at hs
    refine ⟨by omega, by omega, ?_⟩
    have h1 := hs.1
    rwa [Nat.add_comm] at h1

theorem idxOfFrom_none_high {s pat : Str} {i : Nat} (h : s.length < i) :
    idxOfFrom s pat i = none := by
  rw [idxOfFrom]
  simp [h]

theorem scanDisplayMathAux_high (blockText : Str) (bl off fuel i : Nat)
    (h : blockText.length < i) :
    scanDisplayMathAux blockText bl off fuel i = [] := by
  cases fuel with
  | zero => rfl
  | succ f => simp [scanDisplayMathAux, idxOfFrom_none_high h]

/-- With sufficient fuel the scan result does not depend on the fuel. -/
theorem scanDisplayMathAux_fuel (blockText : Str) (bl off : Nat) :
    ∀ fuel fuel' i, blockText.length + 1 ≤ fuel + i →
      blockText.length + 1 ≤ fuel' + i →
      scanDisplayMathAux blockText bl off fuel i =
      scanDisplayMathAux blockText bl off fuel' i := by
  intro fuel
  induction fuel using Nat.strong_induction_on with
  | _ fuel ih =>
    intro fuel' i h1 h2
    by_cases hi : blockText.length < i
    · rw [scanDisplayMathAux_high blockText bl off fuel i hi,
        scanDisplayMathAux_high blockText bl off fuel' i hi]
    · obtain ⟨f, rfl⟩ : ∃ f, fuel = f + 1 := ⟨fuel - 1, by omega⟩
      obtain ⟨f', rfl⟩ : ∃ f', fuel' = f' + 1 := ⟨fuel' - 1, by omega⟩
      cases hsd : idxOfFrom blockText dd i with
      | none => simp [scanDisplayMathAux, hsd]
      | some startDelim =>
        cases hed : idxOfFrom blockText dd (startDelim + 2) with
        | none => simp [scanDisplayMathAux, hsd, hed]
        | some endDelim =>
          have s1 := idxOfFrom_spec hsd
          have s2 := idxOfFrom_spec hed
          simp only [dd, List.length_cons, List.length_nil] at s1 s2
          simp only [scanDisplayMathAux, hsd, hed, List.cons.injEq, true_and]
          exact ih f (by omega) f' (endDelim + 2) (by omega) (by omega)

/-- The defining equations of the scan, stated on the fixed-fuel wrapper:
no opening delimiter ends the scan; an opening delimiter without a closing
one ends the scan; a matched pair records a region and continues right
after the closing delimiter. -/
theorem scanDisplayMath_eq (blockText : Str) (bl off i : Nat) :
    scanDisplayMath blockText bl off i =
      match idxOfFrom blockText dd i with
      | none => []
      | some startDelim =>
        match idxOfFrom blockText dd (startDelim + 2) with
        | none => []
        | some endDelim =>
          mkRegion blockText bl off startDelim endDelim ::
            scanDisplayMath blockText bl off (endDelim + 2) := by
  show scanDisplayMathAux blockText bl off (blockText.length + 1) i = _
  cases hsd : idxOfFrom blockText dd i with
  | none => simp [scanDisplayMathAux, hsd]
  | some startDelim =>
    cases hed : idxOfFrom blockText dd (startDelim + 2) with
    | none => simp [scanDisplayMathAux, hsd, hed]
    | some endDelim =>
      have s1 := idxOfFrom_spec hsd
      have s2 := idxOfFrom_spec hed
      simp only [dd, List.length_cons, List.length_nil] at s1 s2
      simp only [scanDisplayMathAux, hsd, hed, List.cons.injEq, true_and]
      rw [scanDisplayMath]
      exact scanDisplayMathAux_fuel blockText bl off blockText.length
        (blockText.length + 1) (endDelim + 2) (by omega) (by omega)

theorem scanDisplayMath_no_open {blockText : Str} {bl off i : Nat}
    (h : idxOfFrom blockText dd i = none) :
    scanDisplayMath blockText bl off i = [] := by
  show scanDisplayMathAux blockText bl off (blockText.length + 1) i = []
  simp [scanDisplayMathAux, h]

theorem scanDisplayMath_open_only {blockText : Str} {bl off i sd : Nat}
    (hsd : idxOfFrom blockText dd i = some sd)
    (hed : idxOfFrom blockText dd (sd + 2) = none) :
    scanDisplayMath blockText bl off i = [] := by
  show scanDisplayMathAux blockText bl off (blockText.length + 1) i = []
  simp [scanDisplayMathAux, hsd, hed]

theorem scanDisplayMath_pair {blockText : Str} {bl off i sd ed : Nat}
    (hsd : idxOfFrom blockText dd i = some sd)
    (hed : idxOfFrom blockText dd (sd + 2) = some ed) :
    scanDisplayMath blockText bl off i =
      mkRegion blockText bl off sd ed ::
        scanDisplayMath blockText bl off (ed + 2) := by
  have s1 := idxOfFrom_spec hsd
  have s2 := idxOfFrom_spec hed
  simp only [dd, List.length_cons, List.length_nil] at s1 s2
  show scanDisplayMathAux blockText bl off (blockText.length + 1) i = _
  simp only [scanDisplayMathAux, hsd, hed, List.cons.injEq, true_and]
  rw [scanDisplayMath]
  exact scanDisplayMathAux_fuel blockText bl off blockText.length
    (blockText.length + 1) (ed + 2) (by omega) (by omega)

/-- Every region produced by the scan comes from a matched delimiter pair
at or after the scan position, with all fields computed from that pair. -/
theorem scanAux_mem {blockText : Str} {bl off : Nat} :
    ∀ {fuel i : Nat} {r : MathRegion},
      r ∈ scanDisplayMathAux blockText bl off fuel i →
      ∃ sd ed, i ≤ sd ∧ sd + 2 ≤ ed ∧ ed + 2 ≤ blockText.length ∧
        dd.isPrefixOf (blockText.drop sd) ∧ dd.isPrefixOf (blockText.drop ed) ∧
        r = mkRegion blockText bl off sd ed := by
  intro fuel
  induction fuel with
  | zero => intro i r h; simp [scanDisplayMathAux] at h
  | succ f ih =>
    intro i r h
    simp only [scanDisplayMathAux] at h
    split at h
    · simp at h
    · rename_i sd hsd
      split at h
      · simp at h
      · rename_i ed hed
        have s1 := idxOfFrom_spec hsd
        have s2 := idxOfFrom_spec hed
        have hdd : dd.length = 2 := rfl
        rw [hdd] at s1 s2
        rcases List.mem_cons.mp h with hr | hr
        · exact ⟨sd, ed, s1.1, by omega, by omega, s1.2.2, s2.2.2, hr⟩
        · obtain ⟨sd', ed', h1, h2, h3, h4, h5, h6⟩ := ih hr
          exact ⟨sd', ed', by omega, h2, h3, h4, h5, h6⟩

/-- C5: for every callout text in which the scan meets an opening `$$` with
no matching closing `$$` before the end of the text, extraction stops there
without error and returns exactly the regions of the delimiter pairs
completely matched before that point: a matched pair records its region and
the scan continues right after it, while an unmatched opening delimiter (or
no further opening delimiter) ends the scan with no further regions, and
the extractor is the scan started at position 0. -/
theorem c5_unterminated_is_truncated (blockText : Str) (bl off : Nat) :
    (∀ i sd, idxOfFrom blockText dd i = some sd →
      idxOfFrom blockText dd (sd + 2) = none →
      scanDisplayMath blockText bl off i = []) ∧
    (∀ i sd ed, idxOfFrom blockText dd i = some sd →
      idxOfFrom blockText dd (sd + 2) = some ed →
      scanDisplayMath blockText bl off i =
        mkRegion blockText bl off sd ed :: scanDisplayMath blockText bl off (ed + 2)) ∧
    findDisplayMathInCalloutBlock blockText bl off =
      scanDisplayMath blockText bl off 0 := by
  refine ⟨?_, ?_, rfl⟩
  · intro i sd hsd hed
    exact scanDisplayMath_open_only hsd hed
  · intro i sd ed hsd hed
    exact scanDisplayMath_pair hsd hed

/-- Witness for C5 on a concrete input: in `"$$a$$ x $$b"`, the scan
continuing after the matched pair meets the unmatched `$$` at position 8
and returns nothing more, so the whole extraction keeps exactly the one
matched region. -/
theorem c5_witness :
    scanDisplayMath ("$$a$$ x $$b".toList) 0 0 5 = [] ∧
    findDisplayMathInCalloutBlock ("$$a$$ x $$b".toList) 0 0 =
      [⟨0, 0, 0, 5, "a".toList⟩] :=
  ⟨(c5_unterminated_is_truncated ("$$a$$ x $$b".toList) 0 0).1 5 8
    (by decide) (by decide), by decide⟩

/-- C4 (amended): every region recorded by the callout math extractor comes
from a matched pair of `$$` delimiters; its start (resp. end) line is the
callout's start line plus the number of line breaks preceding the opening
(resp. closing) delimiter, its offset span is the callout's start offset
plus the local position of the opening delimiter and of the end of the
closing delimiter, and its text is the text strictly between the delimiters
first trimmed, then with a leading quote marker (and at most one following
whitespace character) stripped from every line, then trimmed again. -/
theorem c4_region_fields (blockText : Str) (bl off : Nat) (r : MathRegion)
    (hr : r ∈ findDisplayMathInCalloutBlock blockText bl off) :
    ∃ sd ed, dd.isPrefixOf (blockText.drop sd) ∧ dd.isPrefixOf (blockText.drop ed) ∧
      sd + 2 ≤ ed ∧ ed + 2 ≤ blockText.length ∧
      r.lineStart = bl + countNl (blockText.take sd) ∧
      r.lineEnd = bl + countNl (blockText.take ed) ∧
      r.startOffset = off + sd ∧
      r.endOffset = off + (ed + 2) ∧
      r.mathText = trimBoth (joinLines
        ((splitLines (trimBoth (slice blockText (sd + 2) ed))).map stripQuoteMarker)) := by
  obtain ⟨sd, ed, h1, h2, h3, h4, h5, h6⟩ := scanAux_mem hr
  subst h6
  exact ⟨sd, ed, h4, h5, h2, h3, rfl, rfl, rfl, rfl, rfl⟩

/-- Witness for C4 on a concrete input. -/
theorem c4_witness :
    ∃ sd ed,
      dd.isPrefixOf (("> $$x$$".toList).drop sd) ∧
      dd.isPrefixOf (("> $$x$$".toList).drop ed) ∧
      sd + 2 ≤ ed ∧ ed + 2 ≤ ("> $$x$$".toList).length ∧
      (MathRegion.mk 3 3 9 14 "x".toList).lineStart = 3 + countNl (("> $$x$$".toList).take sd) ∧
      (MathRegion.mk 3 3 9 14 "x".toList).lineEnd = 3 + countNl (("> $$x$$".toList).take ed) ∧
      (MathRegion.mk 3 3 9 14 "x".toList).startOffset = 7 + sd ∧
      (MathRegion.mk 3 3 9 14 "x".toList).endOffset = 7 + (ed + 2) ∧
      (MathRegion.mk 3 3 9 14 "x".toList).mathText = trimBoth (joinLines
        ((splitLines (trimBoth (slice ("> $$x$$".toList) (sd + 2) ed))).map stripQuoteMarker)) :=
  c4_region_fields ("> $$x$$".toList) 3 7 ⟨3, 3, 9, 14, "x".toList⟩ (by decide)

/-- C4 counterexample: on the callout text `"$$ > x$$"` the recorded math
text is `"x"` (the implementation trims before stripping quote markers),
while stripping the quote marker from the raw between-text `" > x"` and
then trimming — the cleaning as the claim states it — yields `"> x"`. -/
theorem c4_counterexample :
    (findDisplayMathInCalloutBlock ("$$ > x$$".toList) 0 0).map
        (fun r => r.mathText) = ["x".toList] ∧
    claimedCleanMathText (slice ("$$ > x$$".toList) 2 6) = "> x".toList ∧
    "x".toList ≠ "> x".toList := by
  refine ⟨by decide, by decide, by decide⟩

/-- C7: in the by-ordinal-within-container resolution mode, an ordinal at
or past the number of equation blocks found within the callout's span
yields no match (a `none` result), for every block store, callout, and
out-of-range ordinal. -/
theorem c7_out_of_range_ordinal_no_match (blocks : Btree JsonMarkdownBlock)
    (callout : JsonMarkdownBlock) (ourIndex : Nat)
    (h : (getEquationBlocksInRange blocks callout.position.start
      callout.position.stop).length ≤ ourIndex) :
    resolveByOrdinalInCallout blocks callout ourIndex = none := by
  rw [resolveByOrdinalInCallout]
  exact List.get?_eq_none.mpr h

/-- Witness for C7 on a concrete input: an empty block store has no
equations in range, so ordinal 0 is already out of range. -/
theorem c7_witness :
    resolveByOrdinalInCallout [] ⟨1, ⟨0, 2⟩, ⟨⟨0, 0, 0⟩, ⟨2, 0, 9⟩⟩, [], none,
      .theoremCallout ⟨"thm".toList, false⟩ none none false false⟩ 0 = none :=
  c7_out_of_range_ordinal_no_match _ _ 0 (by decide)

/-! ## Tag extraction lemmas (C8) -/

theorem lastBraceCapture_append {t lc : Str} (hlc : '}' ∉ lc) :
    lastBraceCapture (t ++ '}' :: lc) = some t := by
  have hmem : '}' ∈ t ++ '}' :: lc :=
    List.mem_append.mpr (Or.inr (List.mem_cons_self _ _))
  have hrev : (t ++ '}' :: lc).reverse = lc.reverse ++ '}' :: t.reverse := by
    simp
  have hidx : ((t ++ '}' :: lc).reverse).indexOf '}' = lc.length := by
    rw [hrev, List.indexOf_append_of_not_mem (by simpa using hlc),
      List.indexOf_cons_self]
    simp
  have harg : (t ++ '}' :: lc).length - 1 - lc.length = t.length := by
    simp
  rw [lastBraceCapture, if_pos hmem, hidx, harg, List.take_left]

theorem extractTag_eq_none {s : Str}
    (h : ∀ i, ¬ (tagCmd.isPrefixOf (s.drop i) = true)) : extractTag s = none := by
  induction s with
  | nil => rfl
  | cons c rest ih =>
    rw [extractTag]
    have h0 := h 0
    simp only [List.drop_zero] at h0
    rw [if_neg h0]
    exact ih (fun i => by
      have := h (i + 1)
      simpa using this)

theorem extractTag_append (a t c : Str)
    (ha : ∀ i, i < a.length →
      ¬ (tagCmd.isPrefixOf ((a ++ (tagCmd ++ (t ++ '}' :: c))).drop i) = true))
    (ht : '\n' ∉ t)
    (hc : '}' ∉ c.takeWhile (fun x => x ≠ '\n')) :
    extractTag (a ++ (tagCmd ++ (t ++ '}' :: c))) = some t := by
  induction a with
  | nil =>
    simp only [List.nil_append, tagCmd, List.cons_append]
    rw [extractTag]
    have hpre : tagCmd.isPrefixOf
        ('\\' :: 't' :: 'a' :: 'g' :: '{' :: (t ++ '}' :: c)) = true := by
      rw [show ('\\' :: 't' :: 'a' :: 'g' :: '{' :: (t ++ '}' :: c)) =
        tagCmd ++ (t ++ '}' :: c) from rfl]
      exact List.isPrefixOf_iff_prefix.mpr (List.prefix_append _ _)
    rw [if_pos hpre]
    simp only [List.drop_succ_cons, List.drop_zero]
    have htw : (t ++ '}' :: c).takeWhile (fun ch => ch ≠ '\n') =
        t ++ '}' :: c.takeWhile (fun ch => ch ≠ '\n') := by
      rw [List.takeWhile_append_of_pos, List.takeWhile_cons]
      · simp
      · intro x hx
        simp only [ne_eq, decide_eq_true_eq]
        exact fun heq => ht (heq ▸ hx)
    rw [htw, lastBraceCapture_append hc]
  | cons x a' ih =>
    simp only [List.cons_append]
    rw [extractTag]
    have h0 := ha 0 (Nat.succ_pos _)
    simp only [List.cons_append, List.drop_zero] at h0
    rw [if_neg h0]
    refine ih ?_
    intro i hi
    have := ha (i + 1) (by simpa using Nat.succ_lt_succ hi)
    simpa using this

/-- C8 (amended): the manual tag stored by the indexer on an equation block
is `extractTag` of the block's math text; when the source contains no
tag-command at all the result is `none`, and when the source decomposes as
`a ++ "\tag" ++ "(" ++ t ++ ")" ++ c` (braces written as parentheses here)
with no tag-command occurrence starting before the written one — so `a` may
contain arbitrary LaTeX, commands and braces included — no line break
inside `t`, and no further closing brace on the rest of the tag-command's
line, the extracted manual tag is exactly `t`.  (The capture is greedy
within the line, so a further closing brace on the same line — e.g. a
second tag-command — makes the extracted tag extend up to that last brace
instead of stopping at the argument of the first tag-command.) -/
theorem c8_tag_extraction :
    (∀ s : Str, (∀ i, ¬ (tagCmd.isPrefixOf (s.drop i) = true)) →
      extractTag s = none) ∧
    (∀ a t c : Str,
      (∀ i, i < a.length →
        ¬ (tagCmd.isPrefixOf ((a ++ (tagCmd ++ (t ++ '}' :: c))).drop i) = true)) →
      '\n' ∉ t →
      '}' ∉ c.takeWhile (fun x => x ≠ '\n') →
      extractTag (a ++ (tagCmd ++ (t ++ '}' :: c))) = some t) :=
  ⟨fun _ h => extractTag_eq_none h,
   fun a t c ha ht hc => extractTag_append a t c ha ht hc⟩

/-- Witness for C8 on concrete inputs: a tag-command preceded by ordinary
LaTeX (a fraction command with braces), and a source with no tag-command. -/
theorem c8_witness :
    extractTag ("\\frac\x7bx\x7d\x7by\x7d ".toList ++
      (tagCmd ++ ("foo".toList ++ '}' :: "\nz".toList))) = some "foo".toList ∧
    extractTag "no tags here".toList = none :=
  ⟨c8_tag_extraction.2 ("\\frac\x7bx\x7d\x7by\x7d ".toList) "foo".toList
      "\nz".toList (by decide) (by decide) (by decide),
   c8_tag_extraction.1 "no tags here".toList (by
    intro i hp
    obtain ⟨u, hu⟩ := List.isPrefixOf_iff_prefix.mp hp
    have hmem : '\\' ∈ ("no tags here".toList).drop i := by
      rw [← hu]
      simp [tagCmd]
    exact absurd (List.drop_subset _ _ hmem) (by decide))⟩

/-- C8 counterexample: an equation block whose LaTeX source is
`\tag(1)\tag(2)` (braces written as parentheses here) gets the manual tag
`1)\tag(2` — the greedy capture runs to the last closing brace of the line
— and not `1`, the argument of the first tag-command. -/
theorem c8_counterexample :
    (markdownImport toyExt "p".toList
        ("$$\\tag\x7b1\x7d\\tag\x7b2\x7d$$".toList)
        ⟨[], [{ type := "math".toList, position := ⟨⟨0, 0, 0⟩, ⟨0, 18, 18⟩⟩,
                id := none }], [], []⟩ false).sections.map
      (fun s => s.blocks.map (fun b =>
        match b.variant with
        | .equation tag _ _ _ => tag
        | _ => none)) = [[some ("1\x7d\\tag\x7b2".toList)]] ∧
    some ("1\x7d\\tag\x7b2".toList) ≠ some ("1".toList) := by
  refine ⟨by decide, by decide⟩

/-- C9: indexing is deterministic — two runs of `markdownImport` on equal
inputs (same external helpers, path, source text, pre-parsed outline, and
settings flag) produce equal document models, in particular equal section
shapes (ordinals, titles, levels, spans) and equal block ordinals, spans
and variants in every section. -/
theorem c9_deterministic (ext ext' : Ext) (path path' markdown markdown' : Str)
    (metadata metadata' : CachedMetadata) (ex ex' : Bool)
    (hext : ext = ext') (hpath : path = path') (hmd : markdown = markdown')
    (hmeta : metadata = metadata') (hex : ex = ex') :
    markdownImport ext path markdown metadata ex =
      markdownImport ext' path' markdown' metadata' ex' ∧
    (markdownImport ext path markdown metadata ex).sections.map secShape =
      (markdownImport ext' path' markdown' metadata' ex').sections.map secShape ∧
    (markdownImport ext path markdown metadata ex).sections.map
        (fun s => s.blocks.map (fun b => (b.ordinal, b.position, b.pos, b.variant))) =
      (markdownImport ext' path' markdown' metadata' ex').sections.map
        (fun s => s.blocks.map (fun b => (b.ordinal, b.position, b.pos, b.variant))) := by
  subst hext hpath hmd hmeta hex
  exact ⟨rfl, rfl, rfl⟩

/-- Witness for C9 on a concrete input. -/
theorem c9_witness :
    markdownImport toyExt "p".toList "x".toList ⟨[], [], [], []⟩ false =
      markdownImport toyExt "p".toList "x".toList ⟨[], [], [], []⟩ false :=
  (c9_deterministic toyExt toyExt "p".toList "p".toList "x".toList "x".toList
    ⟨[], [], [], []⟩ ⟨[], [], [], []⟩ false false rfl rfl rfl rfl rfl).1

/-- Setting a key that is already present in a sorted tree replaces the
stored value: the entry count and the key list do not change, looking the
key up finds the new value, and no other value remains stored at that
key. -/
theorem btSet_replaces {V : Type} (t : Btree V) (k : Nat) (v : V)
    (hsort : t.Pairwise (fun a b => a.1 < b.1)) (hk : k ∈ t.map Prod.fst) :
    btLookup (btSet t k v) k = some v ∧
    (btSet t k v).length = t.length ∧
    (btSet t k v).map Prod.fst = t.map Prod.fst ∧
    ∀ v0, (k, v0) ∈ btSet t k v → v0 = v := by
  induction t with
  | nil => simp at hk
  | cons p rest ih =>
    obtain ⟨k', v'⟩ := p
    simp only [List.pairwise_cons] at hsort
    simp only [List.map_cons, List.mem_cons] at hk
    rw [btSet]
    split
    · rename_i hlt
      rcases hk with h | h
      · omega
      · obtain ⟨⟨k2, v2⟩, hmem, hfst⟩ := List.mem_map.mp h
        have := hsort.1 _ hmem
        simp at hfst
        omega
    · split
      · rename_i hne heq
        subst heq
        refine ⟨by rw [btLookup]; simp, by simp, by simp, ?_⟩
        intro v0 hv0
        rcases List.mem_cons.mp hv0 with h | h
        · exact (Prod.mk.injEq _ _ _ _ ▸ h).2.symm ▸ rfl
        · have := hsort.1 _ h
          omega
      · rename_i hne1 hne2
        have hgt : k' < k := by omega
        rcases hk with h | h
        · omega
        · have hrec := ih hsort.2 h
          refine ⟨?_, ?_, ?_, ?_⟩
          · rw [btLookup, if_neg (by omega)]
            exact hrec.1
          · simp [hrec.2.1]
          · simp [hrec.2.2.1]
          · intro v0 hv0
            rcases List.mem_cons.mp hv0 with hh | hh
            · have := (Prod.mk.injEq _ _ _ _ ▸ hh).1
              omega
            · exact hrec.2.2.2 v0 hh

/-- C10: the block index is keyed solely by the block start line with
last-writer-wins semantics.  Generally, `btSet` on a key already present
replaces the earlier entry (previous conjunction).  Concretely, for a
one-line theorem callout `> [!thm] $$x$$` whose nested display math starts
on the callout's own start line, the synthesized equation block (which
consumed ordinal 1) is silently overwritten by the callout block (ordinal
2) stored at the same key: the final store holds one entry, the callout,
and the ordinal counter still advanced past the dropped equation. -/
theorem c10_last_writer_wins :
    (∀ (t : Btree Nat) (k : Nat) (v : Nat),
      t.Pairwise (fun a b => a.1 < b.1) → k ∈ t.map Prod.fst →
      btLookup (btSet t k v) k = some v ∧
      (btSet t k v).length = t.length ∧
      ∀ v0, (k, v0) ∈ btSet t k v → v0 = v) ∧
    ((buildBlocks toyExt ("> [!thm] $$x$$".toList)
        (splitLines ("> [!thm] $$x$$".toList)) false
        [{ type := "callout".toList, position := ⟨⟨0, 0, 0⟩, ⟨0, 14, 14⟩⟩,
           id := none }]).blocks.map
        (fun p => (p.1, p.2.ordinal, isEquationBlock p.2)) = [(0, 2, false)] ∧
     (buildBlocks toyExt ("> [!thm] $$x$$".toList)
        (splitLines ("> [!thm] $$x$$".toList)) false
        [{ type := "callout".toList, position := ⟨⟨0, 0, 0⟩, ⟨0, 14, 14⟩⟩,
           id := none }]).blockOrdinal = 3 ∧
     (markdownImport toyExt "p".toList ("> [!thm] $$x$$".toList)
        ⟨[], [{ type := "callout".toList, position := ⟨⟨0, 0, 0⟩, ⟨0, 14, 14⟩⟩,
                id := none }], [], []⟩ false).sections.map
        (fun s => s.blocks.map (fun b => b.ordinal)) = [[2]]) := by
  refine ⟨?_, by decide, by decide, by decide⟩
  intro t k v hs hk
  have h := btSet_replaces t k v hs hk
  exact ⟨h.1, h.2.1, h.2.2.2⟩

/-- Witness for C10 (the general conjunct has hypotheses): on the concrete
sorted store `[(0, 10), (2, 20)]`, setting key 0 to 99 replaces the earlier
entry. -/
theorem c10_witness :
    btLookup (btSet [(0, 10), (2, 20)] 0 99) 0 = some 99 ∧
    (btSet [(0, 10), (2, 20)] 0 99).length = 2 ∧
    ∀ v0, (0, v0) ∈ btSet [(0, 10), (2, 20)] 0 99 → v0 = 99 := by
  have h := (c10_last_writer_wins.1) [(0, 10), (2, 20)] 0 99
    (by decide) (by decide)
  exact ⟨h.1, h.2.1, h.2.2⟩

/-! ## The callout ordinal order (C1) -/

/-- The equation loop of the callout branch, characterized: folding over
the extracted regions inserts one equation block per region, keyed by its
start line, with consecutive ordinals starting at the incoming counter, and
advances the counter by the number of regions. -/
theorem calloutEqFold (ext : Ext) :
    ∀ (eqs : List MathRegion) (st : BlocksState),
      eqs.foldl (fun acc eq =>
        { blocks := btSet acc.blocks eq.lineStart (calloutEqBlock ext eq acc.blockOrdinal),
          blockOrdinal := acc.blockOrdinal + 1 }) st =
      { blocks := ((List.enumFrom st.blockOrdinal eqs).map
          (fun p => (p.2.lineStart, calloutEqBlock ext p.2 p.1))).foldl
            (fun tr q => btSet tr q.1 q.2) st.blocks,
        blockOrdinal := st.blockOrdinal + eqs.length } := by
  intro eqs
  induction eqs with
  | nil => intro st; simp [List.enumFrom]
  | cons eq rest ih =>
    intro st
    simp only [List.foldl_cons, List.enumFrom, List.map_cons]
    rw [ih]
    have harith : st.blockOrdinal + 1 + rest.length =
        st.blockOrdinal + (rest.length + 1) := by omega
    simp [harith]

/-- C1 (amended): when the block pass meets a callout whose header parses
as theorem settings, it performs, in order, one insertion per nested
display-math region — each synthesized equation block consuming the next
document-wide ordinal, in the order the regions appear in the callout —
followed by the insertion of the theorem-callout block itself, which
consumes the ordinal right after the N equations; the insertion ordinals
are exactly the consecutive run `blockOrdinal, …, blockOrdinal + N`, with
the callout's own ordinal `blockOrdinal + N` last (so each nested
equation's ordinal is strictly less than its enclosing callout's), before
the pass continues with the counter at `blockOrdinal + N + 1`. -/
theorem c1_callout_ordinal_order (ext : Ext) (markdown : Str)
    (lines : List Str) (ex : Bool) (st : BlocksState) (block : SectionCache)
    (s : MinimalTheoremCalloutSettings)
    (hty : block.type = "callout".toList)
    (hs : ext.readTheoremCalloutSettings
      (lines.getD block.position.start.line []) ex = some s) :
    let eqs := findDisplayMathInCalloutBlock (getBlockText markdown block)
      block.position.start.line block.position.start.offset
    let inserted := ((List.enumFrom st.blockOrdinal eqs).map
        (fun p => (p.2.lineStart, calloutEqBlock ext p.2 p.1))) ++
      [(block.position.start.line,
        theoremBlock ext lines block s s.legacy (st.blockOrdinal + eqs.length))]
    processBlock ext markdown lines ex st block =
      { blocks := inserted.foldl (fun tr q => btSet tr q.1 q.2) st.blocks,
        blockOrdinal := st.blockOrdinal + eqs.length + 1 } ∧
    inserted.map (fun q => q.2.ordinal) =
      List.range' st.blockOrdinal
        (eqs.length + 1) := by
  intro eqs inserted
  have h1 : ¬ (block.type = "heading".toList) := by rw [hty]; decide
  have h2 : ¬ (block.type = "math".toList) := by rw [hty]; decide
  constructor
  · rw [processBlock, if_neg h1, if_neg h2, hty, if_pos rfl, hs]
    show (let st2 := eqs.foldl _ st
      { blocks := btSet st2.blocks block.position.start.line
          (theoremBlock ext lines block s
            (((some s).map (fun s => s.legacy)).getD false) st2.blockOrdinal),
        blockOrdinal := st2.blockOrdinal + 1 } : BlocksState) = _
    rw [calloutEqFold]
    simp only [inserted, List.foldl_append, List.foldl_cons, List.foldl_nil,
      Option.map_some', Option.getD_some]
  · simp only [inserted, List.map_append, List.map_map, List.map_cons,
      List.map_nil]
    have hord : ((fun q : Nat × JsonMarkdownBlock => q.2.ordinal) ∘
        (fun p : Nat × MathRegion => (p.2.lineStart, calloutEqBlock ext p.2 p.1))) =
        Prod.fst := by
      funext p
      rfl
    rw [hord, List.enumFrom_map_fst]
    show List.range' st.blockOrdinal eqs.length ++ [st.blockOrdinal + eqs.length] = _
    rw [← List.range'_1_concat]

/-- Witness for C1 on a concrete input: a two-line theorem callout with one
nested display-math region. -/
theorem c1_witness :
    let block : SectionCache :=
      { type := "callout".toList, position := ⟨⟨0, 0, 0⟩, ⟨1, 7, 16⟩⟩, id := none }
    let eqs := findDisplayMathInCalloutBlock
      (getBlockText ("> [!thm]\n> $$x$$\n".toList) block)
      block.position.start.line block.position.start.offset
    let inserted := ((List.enumFrom 1 eqs).map
        (fun p => (p.2.lineStart, calloutEqBlock toyExt p.2 p.1))) ++
      [(block.position.start.line,
        theoremBlock toyExt (splitLines ("> [!thm]\n> $$x$$\n".toList)) block
          ⟨"thm".toList, false⟩ false (1 + eqs.length))]
    processBlock toyExt ("> [!thm]\n> $$x$$\n".toList)
        (splitLines ("> [!thm]\n> $$x$$\n".toList)) false ⟨[], 1⟩ block =
      { blocks := inserted.foldl (fun tr q => btSet tr q.1 q.2) [],
        blockOrdinal := 1 + eqs.length + 1 } ∧
    inserted.map (fun q => q.2.ordinal) = List.range' 1 (eqs.length + 1) :=
  c1_callout_ordinal_order toyExt ("> [!thm]\n> $$x$$\n".toList)
    (splitLines ("> [!thm]\n> $$x$$\n".toList)) false ⟨[], 1⟩
    { type := "callout".toList, position := ⟨⟨0, 0, 0⟩, ⟨1, 7, 16⟩⟩, id := none }
    ⟨"thm".toList, false⟩ rfl (by decide)

/-- C1 counterexample: in the page built from a document holding one
callout with theorem settings and one nested display-math region, the callout block has
ordinal 2 and its nested equation has ordinal 1 — the nested equation's
ordinal is smaller, not greater as the claim states. -/
theorem c1_counterexample :
    (markdownImport toyExt "p".toList ("> [!thm]\n> $$x$$\n".toList)
        ⟨[], [{ type := "callout".toList, position := ⟨⟨0, 0, 0⟩, ⟨1, 7, 16⟩⟩,
                id := none }], [], []⟩ false).sections.map
      (fun s => s.blocks.map (fun b => (b.ordinal, isEquationBlock b))) =
      [[(2, false), (1, true)]] ∧
    ¬ (1 : Nat) > 2 := by
  exact ⟨by decide, by decide⟩

/-! ## Section store characterization (towards C2 and C3) -/

theorem btSet_append {V : Type} (t : Btree V) (k : Nat) (v : V)
    (h : ∀ p ∈ t, p.1 < k) : btSet t k v = t ++ [(k, v)] := by
  induction t with
  | nil => rfl
  | cons p rest ih =>
    obtain ⟨k', v'⟩ := p
    have hp := h (k', v') (List.mem_cons_self _ _)
    rw [btSet, if_neg (by omega), if_neg (by omega),
      ih (fun q hq => h q (List.mem_cons_of_mem _ hq))]
    rfl

theorem btSet_prepend {V : Type} (t : Btree V) (k : Nat) (v : V)
    (h : ∀ p ∈ t, k < p.1) : btSet t k v = (k, v) :: t := by
  cases t with
  | nil => rfl
  | cons p rest =>
    obtain ⟨k', v'⟩ := p
    rw [btSet, if_pos (h (k', v') (List.mem_cons_self _ _))]

theorem sortHeadings_eq_self : ∀ {hs : List HeadingCache},
    hs.Pairwise (fun a b => a.position.start.line < b.position.start.line) →
    sortHeadings hs = hs := by
  intro hs
  induction hs with
  | nil => intro _; rfl
  | cons h rest ih =>
    intro hp
    rw [List.pairwise_cons] at hp
    rw [sortHeadings, ih hp.2]
    cases rest with
    | nil => rfl
    | cons h2 r2 =>
      rw [insertHeading, if_pos (hp.1 h2 (List.mem_cons_self _ _))]

theorem headingPairs_keys (n : Nat) : ∀ (hs : List HeadingCache) (idx : Nat),
    (headingPairs n hs idx).map Prod.fst =
      hs.map (fun h => h.position.start.line) := by
  intro hs
  induction hs with
  | nil => intro idx; rfl
  | cons h rest ih => intro idx; simp [headingPairs, ih]

theorem headingSectionsAux_eq (n : Nat) : ∀ (hs : List HeadingCache) (idx : Nat)
    (t : Btree JsonMarkdownSection),
    hs.Pairwise (fun a b => a.position.start.line < b.position.start.line) →
    (∀ p ∈ t, ∀ h ∈ hs, p.1 < h.position.start.line) →
    headingSectionsAux n hs idx t = t ++ headingPairs n hs idx := by
  intro hs
  induction hs with
  | nil => intro idx t _ _; simp [headingSectionsAux, headingPairs]
  | cons h rest ih =>
    intro idx t hp ht
    rw [List.pairwise_cons] at hp
    simp only [headingSectionsAux, headingPairs]
    rw [btSet_append t h.position.start.line _
      (fun q hq => ht q hq h (List.mem_cons_self _ _))]
    rw [ih (idx + 1) _ hp.2 ?_]
    · simp
    · intro q hq h2 hh2
      rcases List.mem_append.mp hq with hq | hq
      · exact ht q hq h2 (List.mem_cons_of_mem _ hh2)
      · simp only [List.mem_singleton] at hq
        subst hq
        exact hp.1 h2 hh2

/-- `emptylines` over the empty range is vacuously true. -/
theorem emptylines_zero (lines : List Str) : emptylines lines 0 0 = true := rfl

/-- For any tree, the at-or-above lookup of key 0 is the first entry. -/
theorem btGetPairOrNextHigher_zero {V : Type} (t : Btree V) :
    btGetPairOrNextHigher t 0 = t.head? := by
  cases t with
  | nil => rfl
  | cons p rest =>
    obtain ⟨k, v⟩ := p
    rw [btGetPairOrNextHigher, if_pos (Nat.zero_le _)]
    rfl

/-- All keys of the heading store are positive when all heading lines
are. -/
theorem headingPairs_pos (n : Nat) (hs : List HeadingCache) (idx : Nat)
    (hpos : ∀ h ∈ hs, 0 < h.position.start.line) :
    ∀ q ∈ headingPairs n hs idx, 0 < q.1 := by
  intro q hq
  have hm : q.1 ∈ (headingPairs n hs idx).map Prod.fst :=
    List.mem_map_of_mem _ hq
  rw [headingPairs_keys] at hm
  obtain ⟨h2, hh2, heq⟩ := List.mem_map.mp hm
  rw [← heq]
  exact hpos h2 hh2

/-- The section store built by the section pass, written out: the heading
sections in heading order, preceded by the implicit leading section when
the implicit-section condition holds. -/
theorem buildSections_eq (ext : Ext) (path : Str) (lines : List Str)
    (hs : List HeadingCache) (empty : Bool)
    (hp : hs.Pairwise (fun a b => a.position.start.line < b.position.start.line)) :
    buildSections ext path lines hs empty =
      (match hs with
       | [] =>
         if empty then []
         else
           [(0, { ordinal := 0, title := ext.getFileTitle path, level := 1,
                  position := ⟨0, lines.length⟩, blocks := [], links := [] })]
       | h :: _ =>
         if emptylines lines 0 h.position.start.line then
           headingPairs lines.length hs 0
         else
           (0, { ordinal := 0, title := ext.getFileTitle path, level := 1,
                 position := ⟨0, h.position.start.line - 1⟩, blocks := [],
                 links := [] }) ::
             headingPairs lines.length hs 0) := by
  have htree : headingSectionsAux lines.length (sortHeadings hs) 0 [] =
      headingPairs lines.length hs 0 := by
    rw [sortHeadings_eq_self hp,
      headingSectionsAux_eq lines.length hs 0 [] hp (by simp)]
    simp
  cases hs with
  | nil =>
    simp only [buildSections, htree, headingPairs]
    cases empty with
    | false => simp [btGetPairOrNextHigher, btSet]
    | true => simp [btGetPairOrNextHigher]
  | cons h rest =>
    obtain ⟨sec1, hhead, hstart⟩ :
        ∃ sec, (headingPairs lines.length (h :: rest) 0).head? =
          some (h.position.start.line, sec) ∧
          sec.position.start = h.position.start.line := by
      cases rest with
      | nil => exact ⟨_, rfl, rfl⟩
      | cons h2 r2 => exact ⟨_, rfl, rfl⟩
    simp only [buildSections, htree]
    rw [btGetPairOrNextHigher_zero, hhead]
    show (if (!emptylines lines 0 sec1.position.start) = true
        then btSet (headingPairs lines.length (h :: rest) 0) 0
          { ordinal := 0, title := ext.getFileTitle path, level := 1,
            position := ⟨0, sec1.position.start - 1⟩, blocks := [], links := [] }
        else headingPairs lines.length (h :: rest) 0) = _
    rw [hstart]
    cases hemp : emptylines lines 0 h.position.start.line with
    | true => simp
    | false =>
      simp only [Bool.not_false, if_true]
      have hline : 0 < h.position.start.line := by
        rcases Nat.eq_zero_or_pos h.position.start.line with h0 | h0
        · rw [h0, emptylines_zero] at hemp
          exact absurd hemp (by simp)
        · exact h0
      have hpos : ∀ h2 ∈ (h :: rest), 0 < h2.position.start.line := by
        intro h2 hh2
        rcases List.mem_cons.mp hh2 with heq | hh2
        · rw [heq]; exact hline
        · have := (List.pairwise_cons.mp hp).1 h2 hh2
          omega
      exact btSet_prepend _ _ _
        (headingPairs_pos lines.length (h :: rest) 0 hpos)

/-! ## Shape preservation through the link and assignment passes -/

theorem btModify_shape {V W : Type} (t : Btree V) (k : Nat) (f : V → V)
    (proj : V → W) (hf : ∀ v, proj (f v) = proj v) :
    (btModify t k f).map (fun p => (p.1, proj p.2)) =
      t.map (fun p => (p.1, proj p.2)) := by
  rw [btModify, List.map_map]
  apply List.map_congr_left
  intro p _
  by_cases h : p.1 = k <;> simp [h, hf]

theorem processLink_secShape (ext : Ext) (st : LinkState) (ld : LinkCache) :
    ((processLink ext st ld).sections).map (fun p => (p.1, secShape p.2)) =
      st.sections.map (fun p => (p.1, secShape p.2)) := by
  show (addLinkToSection st.sections ld.position.start.line _).map _ = _
  cases hm : btGetPairOrNextLower st.sections ld.position.start.line with
  | none => simp only [addLinkToSection, hm]
  | some sp =>
    by_cases hc : ld.position.start.line ≤ sp.2.position.stop
    · simp only [addLinkToSection, hm, if_pos hc]
      exact btModify_shape _ _ _ _ (fun v => rfl)
    · simp only [addLinkToSection, hm, if_neg hc]

theorem processLinks_secShape (ext : Ext) :
    ∀ (lds : List LinkCache) (st : LinkState),
    ((processLinks ext st lds).sections).map (fun p => (p.1, secShape p.2)) =
      st.sections.map (fun p => (p.1, secShape p.2)) := by
  intro lds
  induction lds with
  | nil => intro st; rfl
  | cons ld rest ih =>
    intro st
    show ((processLinks ext (processLink ext st ld) rest).sections).map _ = _
    rw [ih, processLink_secShape]

theorem assignBlocks_secShape (secs : Btree JsonMarkdownSection)
    (blocks : Btree JsonMarkdownBlock) :
    (assignBlocks secs blocks).map (fun p => (p.1, secShape p.2)) =
      secs.map (fun p => (p.1, secShape p.2)) := by
  rw [assignBlocks]
  generalize btValues blocks = bs
  induction bs generalizing secs with
  | nil => rfl
  | cons b rest ih =>
    cases hm : btGetPairOrNextLower secs b.position.start with
    | none =>
      simp only [List.foldl_cons, hm]
      exact ih secs
    | some sp =>
      by_cases hc : b.position.stop ≤ sp.2.position.stop
      · simp only [List.foldl_cons, hm, if_pos hc]
        rw [ih]
        exact btModify_shape _ _ _ _ (fun v => rfl)
      · simp only [List.foldl_cons, hm, if_neg hc]
        exact ih secs

theorem headingPairs_shape (n : Nat) : ∀ (hs : List HeadingCache) (idx : Nat),
    (headingPairs n hs idx).map (fun p => secShape p.2) = headingTuples n hs idx := by
  intro hs
  induction hs with
  | nil => intro idx; rfl
  | cons h rest ih =>
    intro idx
    cases rest with
    | nil => rfl
    | cons h2 r2 =>
      show _ :: (headingPairs n (h2 :: r2) (idx + 1)).map _ = _
      rw [ih]
      rfl

/-- The section shapes of the final page for a document with no headings:
just the implicit section when the document has a non-blank line. -/
theorem markdownImport_sections_shape_nil (ext : Ext) (path markdown : Str)
    (metadata : CachedMetadata) (ex : Bool)
    (hnil : metadata.headings = []) :
    (markdownImport ext path markdown metadata ex).sections.map secShape =
      (if (splitLines markdown).any (fun line => !(trimBoth line).isEmpty) then
        [(0, ext.getFileTitle path, 1, (⟨0, (splitLines markdown).length⟩ : Span))]
      else []) := by
  have hvals : ∀ (X : Btree JsonMarkdownSection),
      (btValues X).map secShape =
        (X.map (fun p => (p.1, secShape p.2))).map Prod.snd := by
    intro X
    simp only [btValues, List.map_map]
    rfl
  show (btValues (assignBlocks _ _)).map secShape = _
  rw [hvals, assignBlocks_secShape, processLinks_secShape]
  show ((buildSections ext path (splitLines markdown) metadata.headings
      (!(splitLines markdown).any fun line => !(trimBoth line).isEmpty)).map
        (fun p => (p.1, secShape p.2))).map Prod.snd = _
  rw [hnil, buildSections_eq ext path (splitLines markdown) [] _ List.Pairwise.nil]
  cases hany : (splitLines markdown).any (fun line => !(trimBoth line).isEmpty) with
  | true => rfl
  | false => rfl

/-- The section shapes of the final page for a document with at least one
heading: the implicit leading section when some line before the first
heading is non-blank, followed by the heading sections in order. -/
theorem markdownImport_sections_shape_cons (ext : Ext) (path markdown : Str)
    (metadata : CachedMetadata) (ex : Bool) (h : HeadingCache)
    (rest : List HeadingCache)
    (hcons : metadata.headings = h :: rest)
    (hp : (h :: rest).Pairwise
      (fun a b => a.position.start.line < b.position.start.line)) :
    (markdownImport ext path markdown metadata ex).sections.map secShape =
      (if emptylines (splitLines markdown) 0 h.position.start.line then []
       else [(0, ext.getFileTitle path, 1,
         (⟨0, h.position.start.line - 1⟩ : Span))]) ++
      headingTuples (splitLines markdown).length (h :: rest) 0 := by
  have hvals : ∀ (X : Btree JsonMarkdownSection),
      (btValues X).map secShape =
        (X.map (fun p => (p.1, secShape p.2))).map Prod.snd := by
    intro X
    simp only [btValues, List.map_map]
    rfl
  show (btValues (assignBlocks _ _)).map secShape = _
  rw [hvals, assignBlocks_secShape, processLinks_secShape]
  show ((buildSections ext path (splitLines markdown) metadata.headings
      (!(splitLines markdown).any fun line => !(trimBoth line).isEmpty)).map
        (fun p => (p.1, secShape p.2))).map Prod.snd = _
  rw [hcons, buildSections_eq ext path (splitLines markdown) (h :: rest) _ hp]
  cases hemp : emptylines (splitLines markdown) 0 h.position.start.line with
  | true =>
    simp only [hemp, reduceIte, List.nil_append, List.map_map]
    show (headingPairs (splitLines markdown).length (h :: rest) 0).map
      (fun p => secShape p.2) = _
    rw [headingPairs_shape]
  | false =>
    simp only [hemp, reduceIte, List.map_cons, List.map_map]
    show secShape _ :: (headingPairs (splitLines markdown).length (h :: rest) 0).map
      (fun p => secShape p.2) = _
    rw [headingPairs_shape]
    rfl

/-! ## Span facts for the heading sections (towards C2) -/

theorem headingTuples_spans (n : Nat) :
    ∀ (rest : List HeadingCache) (h : HeadingCache) (idx : Nat),
    (h :: rest).Pairwise (fun a b => a.position.start.line < b.position.start.line) →
    (∀ h2 ∈ h :: rest, h2.position.start.line < n) →
    ((headingTuples n (h :: rest) idx).map (fun tup => tup.2.2.2)).Chain'
      (fun a b => a.stop + 1 = b.start) ∧
    (∀ sp ∈ (headingTuples n (h :: rest) idx).map (fun tup => tup.2.2.2),
      sp.start ≤ sp.stop) ∧
    (((headingTuples n (h :: rest) idx).map (fun tup => tup.2.2.2)).head?).map
      (fun sp => sp.start) = some h.position.start.line ∧
    (((headingTuples n (h :: rest) idx).map (fun tup => tup.2.2.2)).getLast?).map
      (fun sp => sp.stop) = some (n - 1) := by
  intro rest
  induction rest with
  | nil =>
    intro h idx hp hb
    have hb1 := hb h (List.mem_cons_self _ _)
    refine ⟨List.chain'_singleton _, ?_, rfl, rfl⟩
    intro sp hsp
    simp only [headingTuples, List.map_cons, List.map_nil,
      List.mem_singleton] at hsp
    subst hsp
    show h.position.start.line ≤ n - 1
    omega
  | cons h2 r2 ih =>
    intro h idx hp hb
    have hlt : h.position.start.line < h2.position.start.line :=
      (List.pairwise_cons.mp hp).1 h2 (List.mem_cons_self _ _)
    have htail := ih h2 (idx + 1) (List.pairwise_cons.mp hp).2
      (fun x hx => hb x (List.mem_cons_of_mem _ hx))
    obtain ⟨hchain2, hle2, hhead2, hlast2⟩ := htail
    cases hS : (headingTuples n (h2 :: r2) (idx + 1)).map (fun tup => tup.2.2.2) with
    | nil => rw [hS] at hhead2; exact absurd hhead2 (by simp)
    | cons sp2 rS =>
      rw [hS] at hchain2 hle2 hhead2 hlast2
      have hsp2 : sp2.start = h2.position.start.line := by
        simp only [List.head?_cons, Option.map_some'] at hhead2
        exact Option.some.injEq _ _ ▸ hhead2
      have hshow : (headingTuples n (h :: h2 :: r2) idx).map (fun tup => tup.2.2.2) =
          (⟨h.position.start.line, h2.position.start.line - 1⟩ : Span) ::
            sp2 :: rS := by
        show (⟨h.position.start.line, h2.position.start.line - 1⟩ : Span) ::
          (headingTuples n (h2 :: r2) (idx + 1)).map (fun tup => tup.2.2.2) = _
        rw [hS]
      rw [hshow]
      refine ⟨List.chain'_cons.mpr ⟨?_, hchain2⟩, ?_, rfl, ?_⟩
      · show (h2.position.start.line - 1) + 1 = sp2.start
        omega
      · intro sp hsp
        rcases List.mem_cons.mp hsp with heq | hsp
        · subst heq
          show h.position.start.line ≤ h2.position.start.line - 1
          omega
        · exact hle2 sp hsp
      · rw [List.getLast?_cons_cons]
        exact hlast2

theorem spans_disjoint :
    ∀ (spans : List Span), spans.Chain' (fun a b => a.stop + 1 = b.start) →
    (∀ sp ∈ spans, sp.start ≤ sp.stop) →
    spans.Pairwise (fun a b => a.stop < b.start) := by
  intro spans
  induction spans with
  | nil => intro _ _; exact List.Pairwise.nil
  | cons a rest ih =>
    intro hchain hle
    have hchain' := List.chain'_cons'.mp hchain
    have hrest := ih hchain'.2 (fun sp hsp => hle sp (List.mem_cons_of_mem _ hsp))
    refine List.pairwise_cons.mpr ⟨?_, hrest⟩
    intro x hx
    cases rest with
    | nil => simp at hx
    | cons b r2 =>
      have hab : a.stop + 1 = b.start := hchain'.1 b rfl
      rcases List.mem_cons.mp hx with heq | hx
      · subst heq; omega
      · have hbx := (List.pairwise_cons.mp hrest).1 x hx
        have hbb := hle b (List.mem_cons_of_mem _ (List.mem_cons_self _ _))
        omega

theorem spans_cover :
    ∀ (spans : List Span) (hd lt : Span), spans.head? = some hd →
    spans.getLast? = some lt →
    spans.Chain' (fun a b => a.stop + 1 = b.start) →
    (∀ sp ∈ spans, sp.start ≤ sp.stop) →
    ∀ l : Nat, (∃ sp ∈ spans, sp.start ≤ l ∧ l ≤ sp.stop) ↔
      (hd.start ≤ l ∧ l ≤ lt.stop) := by
  intro spans
  induction spans with
  | nil => intro hd lt h; simp at h
  | cons a rest ih =>
    intro hd lt hhd hlt hchain hle l
    simp only [List.head?_cons, Option.some.injEq] at hhd
    subst hhd
    cases rest with
    | nil =>
      simp only [List.getLast?_singleton, Option.some.injEq] at hlt
      subst hlt
      simp
    | cons b r2 =>
      rw [List.getLast?_cons_cons] at hlt
      have hchain2 := List.chain'_cons.mp hchain
      have hiff := ih b lt rfl hlt hchain2.2
        (fun sp hsp => hle sp (List.mem_cons_of_mem _ hsp))
      have hble : b.start ≤ lt.stop := by
        have := (hiff b.start).mp
          ⟨b, List.mem_cons_self _ _, le_refl _,
            hle b (List.mem_cons_of_mem _ (List.mem_cons_self _ _))⟩
        exact this.2
      have hab : a.stop + 1 = b.start := hchain2.1
      have haa : a.start ≤ a.stop := hle a (List.mem_cons_self _ _)
      constructor
      · rintro ⟨sp, hsp, h1, h2⟩
        rcases List.mem_cons.mp hsp with heq | hsp
        · subst heq
          exact ⟨h1, by omega⟩
        · have := (hiff l).mp ⟨sp, hsp, h1, h2⟩
          exact ⟨by omega, this.2⟩
      · rintro ⟨h1, h2⟩
        by_cases hcase : l ≤ a.stop
        · exact ⟨a, List.mem_cons_self _ _, h1, hcase⟩
        · have := (hiff l).mpr ⟨by omega, h2⟩
          obtain ⟨sp, hsp, hsp1, hsp2⟩ := this
          exact ⟨sp, List.mem_cons_of_mem _ hsp, hsp1, hsp2⟩

theorem headingTuples_ordinal_pos (n : Nat) :
    ∀ (hs : List HeadingCache) (idx : Nat),
    ∀ tup ∈ headingTuples n hs idx, 0 < tup.1 := by
  intro hs
  induction hs with
  | nil => intro idx tup h; simp [headingTuples] at h
  | cons h rest ih =>
    intro idx tup htup
    rcases List.mem_cons.mp htup with heq | htup
    · rw [heq]; exact Nat.succ_pos idx
    · exact ih (idx + 1) tup htup

/-- C2 (amended): the sections' spans are pairwise non-overlapping, and
they tile the document as follows.  With no headings, a document with a
non-blank line produces exactly one section spanning line 0 to the line
count (one past the last line), and a blank document produces zero
sections.  With at least one heading, a line is covered by some section
exactly when it lies between the first covered line — 0 when the implicit
leading section exists (some non-blank line precedes the first heading),
the first heading's line otherwise, leaving any leading blank lines
uncovered — and the last line of the document. -/
theorem c2_section_partition (ext : Ext) (path markdown : Str)
    (metadata : CachedMetadata) (ex : Bool)
    (hp : metadata.headings.Pairwise
      (fun a b => a.position.start.line < b.position.start.line))
    (hbound : ∀ h ∈ metadata.headings,
      h.position.start.line < (splitLines markdown).length) :
    ((markdownImport ext path markdown metadata ex).sections.map
        (fun s => s.position)).Pairwise (fun a b => a.stop < b.start) ∧
    (metadata.headings = [] →
      (markdownImport ext path markdown metadata ex).sections.map
          (fun s => s.position) =
        (if (splitLines markdown).any (fun line => !(trimBoth line).isEmpty)
         then [⟨0, (splitLines markdown).length⟩] else [])) ∧
    (∀ h rest, metadata.headings = h :: rest →
      ∀ l : Nat,
        ((∃ sp ∈ (markdownImport ext path markdown metadata ex).sections.map
            (fun s => s.position), sp.start ≤ l ∧ l ≤ sp.stop) ↔
          ((if emptylines (splitLines markdown) 0 h.position.start.line
            then h.position.start.line else 0) ≤ l ∧
           l ≤ (splitLines markdown).length - 1))) := by
  have hsp : ∀ (secs : List JsonMarkdownSection),
      secs.map (fun s => s.position) =
        (secs.map secShape).map (fun t => t.2.2.2) := by
    intro secs
    rw [List.map_map]
    rfl
  refine ⟨?_, ?_, ?_⟩
  · cases hhs : metadata.headings with
    | nil =>
      rw [hsp, markdownImport_sections_shape_nil ext path markdown metadata ex hhs]
      cases hany : (splitLines markdown).any (fun line => !(trimBoth line).isEmpty) with
      | true => simp
      | false => simp
    | cons h rest =>
      rw [hhs] at hp hbound
      rw [hsp, markdownImport_sections_shape_cons ext path markdown metadata ex
        h rest hhs hp, List.map_append]
      obtain ⟨hchain, hle, hhead, hlast⟩ :=
        headingTuples_spans (splitLines markdown).length rest h 0 hp hbound
      cases hS : (headingTuples (splitLines markdown).length (h :: rest) 0).map
          (fun tup => tup.2.2.2) with
      | nil => rw [hS] at hhead; exact absurd hhead (by simp)
      | cons sp1 rS =>
        rw [hS] at hchain hle hhead
        have hsp1 : sp1.start = h.position.start.line := by simpa using hhead
        cases hemp : emptylines (splitLines markdown) 0 h.position.start.line with
        | true =>
          simp only [hemp, reduceIte, List.map_nil, List.nil_append]
          exact spans_disjoint _ hchain hle
        | false =>
          have h0 : 0 < h.position.start.line := by
            rcases Nat.eq_zero_or_pos h.position.start.line with hz | hz
            · rw [hz, emptylines_zero] at hemp
              exact absurd hemp (by simp)
            · exact hz
          rw [if_neg (by simp [hemp])]
          simp only [List.map_cons, List.map_nil, List.cons_append,
            List.nil_append]
          apply spans_disjoint
          · exact List.chain'_cons.mpr ⟨by show _ - 1 + 1 = sp1.start; omega, hchain⟩
          · intro sp hmem
            rcases List.mem_cons.mp hmem with heq | hmem
            · subst heq
              show (0 : Nat) ≤ h.position.start.line - 1
              omega
            · exact hle sp hmem
  · intro hnil
    rw [hsp, markdownImport_sections_shape_nil ext path markdown metadata ex hnil]
    cases hany : (splitLines markdown).any (fun line => !(trimBoth line).isEmpty) with
    | true => rfl
    | false => rfl
  · intro h rest hcons l
    rw [hcons] at hp hbound
    rw [hsp, markdownImport_sections_shape_cons ext path markdown metadata ex
      h rest hcons hp, List.map_append]
    obtain ⟨hchain, hle, hhead, hlast⟩ :=
      headingTuples_spans (splitLines markdown).length rest h 0 hp hbound
    cases hS : (headingTuples (splitLines markdown).length (h :: rest) 0).map
        (fun tup => tup.2.2.2) with
    | nil => rw [hS] at hhead; exact absurd hhead (by simp)
    | cons sp1 rS =>
      rw [hS] at hchain hle hhead hlast
      have hsp1 : sp1.start = h.position.start.line := by simpa using hhead
      obtain ⟨lt, hltget, hltstop⟩ := Option.map_eq_some'.mp hlast
      cases hemp : emptylines (splitLines markdown) 0 h.position.start.line with
      | true =>
        simp only [hemp, reduceIte, List.map_nil, List.nil_append]
        have hcov := spans_cover (sp1 :: rS) sp1 lt rfl hltget hchain hle l
        rw [hsp1, hltstop] at hcov
        exact hcov
      | false =>
        have h0 : 0 < h.position.start.line := by
          rcases Nat.eq_zero_or_pos h.position.start.line with hz | hz
          · rw [hz, emptylines_zero] at hemp
            exact absurd hemp (by simp)
          · exact hz
        rw [if_neg (by simp [hemp])]
        simp only [List.map_cons, List.map_nil, List.cons_append,
          List.nil_append]
        have hcov := spans_cover
          ((⟨0, h.position.start.line - 1⟩ : Span) :: sp1 :: rS)
          ⟨0, h.position.start.line - 1⟩ lt rfl
          (by rw [List.getLast?_cons_cons]; exact hltget)
          (List.chain'_cons.mpr ⟨by show _ - 1 + 1 = sp1.start; omega, hchain⟩)
          (by
            intro sp hmem
            rcases List.mem_cons.mp hmem with heq | hmem
            · subst heq
              show (0 : Nat) ≤ h.position.start.line - 1
              omega
            · exact hle sp hmem) l
        rw [hltstop] at hcov
        exact hcov

/-- Witness for C2 on the concrete document `"intro\n\n# H1\nbody\n"`
(one heading at line 2, non-blank line 0): spans are pairwise disjoint and
line 3 is covered exactly as the tiling describes. -/
theorem c2_witness :
    ((markdownImport toyExt "p".toList ("intro\n\n# H1\nbody\n".toList)
        ⟨[{ heading := "H1".toList, level := 1,
            position := ⟨⟨2, 0, 7⟩, ⟨2, 4, 11⟩⟩ }], [], [], []⟩ false).sections.map
        (fun s => s.position)).Pairwise (fun a b => a.stop < b.start) ∧
    ((∃ sp ∈ (markdownImport toyExt "p".toList ("intro\n\n# H1\nbody\n".toList)
        ⟨[{ heading := "H1".toList, level := 1,
            position := ⟨⟨2, 0, 7⟩, ⟨2, 4, 11⟩⟩ }], [], [], []⟩ false).sections.map
        (fun s => s.position), sp.start ≤ 3 ∧ 3 ≤ sp.stop) ↔
      ((if emptylines (splitLines ("intro\n\n# H1\nbody\n".toList)) 0 2
        then 2 else 0) ≤ 3 ∧
       3 ≤ (splitLines ("intro\n\n# H1\nbody\n".toList)).length - 1)) := by
  have h := c2_section_partition toyExt "p".toList ("intro\n\n# H1\nbody\n".toList)
    ⟨[{ heading := "H1".toList, level := 1,
        position := ⟨⟨2, 0, 7⟩, ⟨2, 4, 11⟩⟩ }], [], [], []⟩ false
    (by simp) (by decide)
  exact ⟨h.1, h.2.2 _ [] rfl 3⟩

/-- C2 counterexample: the document `"\n# H\nx"` has a non-blank line, its
last line is line 2, and the only section spans lines 1–2 — line 0 (blank,
before the first heading) is covered by no section, so the union of the
spans is not `[0, lastLine]`. -/
theorem c2_counterexample :
    (markdownImport toyExt "p".toList ("\n# H\nx".toList)
        ⟨[{ heading := "H".toList, level := 1,
            position := ⟨⟨1, 0, 1⟩, ⟨1, 3, 4⟩⟩ }], [], [], []⟩ false).sections.map
      (fun s => s.position) = [⟨1, 2⟩] ∧
    (splitLines ("\n# H\nx".toList)).any
      (fun line => !(trimBoth line).isEmpty) = true ∧
    (splitLines ("\n# H\nx".toList)).length - 1 = 2 ∧
    ¬ ∃ sp ∈ [(⟨1, 2⟩ : Span)], sp.start ≤ 0 ∧ 0 ≤ sp.stop := by
  refine ⟨by decide, by decide, by decide, by decide⟩

/-- C3: the indexer synthesizes an implicit leading section (a section
shape with ordinal 0, level 1, title derived from the document's own name
by the external title function) if and only if either (a) there is at least
one heading and some line strictly before the first heading is non-blank
(which forces the first heading off line 0), or (b) there are no headings
and the document is not entirely blank; when synthesized it is the first
section, its span starting at line 0 and ending at the line before the
first heading, or at the document end position (the line count, as recorded
on the page) when there are no headings. -/
theorem c3_implicit_section (ext : Ext) (path markdown : Str)
    (metadata : CachedMetadata) (ex : Bool)
    (hp : metadata.headings.Pairwise
      (fun a b => a.position.start.line < b.position.start.line)) :
    (metadata.headings = [] →
      (((∃ sh ∈ (markdownImport ext path markdown metadata ex).sections.map secShape,
          sh.1 = 0) ↔
        (splitLines markdown).any (fun line => !(trimBoth line).isEmpty) = true) ∧
       ((splitLines markdown).any (fun line => !(trimBoth line).isEmpty) = true →
        ((markdownImport ext path markdown metadata ex).sections.map secShape).head? =
          some (0, ext.getFileTitle path, 1, ⟨0, (splitLines markdown).length⟩)))) ∧
    (∀ h rest, metadata.headings = h :: rest →
      (((∃ sh ∈ (markdownImport ext path markdown metadata ex).sections.map secShape,
          sh.1 = 0) ↔
        emptylines (splitLines markdown) 0 h.position.start.line = false) ∧
       (emptylines (splitLines markdown) 0 h.position.start.line = false →
        ((markdownImport ext path markdown metadata ex).sections.map secShape).head? =
          some (0, ext.getFileTitle path, 1, ⟨0, h.position.start.line - 1⟩)))) := by
  constructor
  · intro hnil
    rw [markdownImport_sections_shape_nil ext path markdown metadata ex hnil]
    cases hany : (splitLines markdown).any (fun line => !(trimBoth line).isEmpty) with
    | true =>
      refine ⟨⟨fun _ => rfl, fun _ => ?_⟩, fun _ => rfl⟩
      exact ⟨(0, ext.getFileTitle path, 1, ⟨0, (splitLines markdown).length⟩),
        List.mem_cons_self _ _, rfl⟩
    | false =>
      refine ⟨⟨?_, fun habs => absurd habs (by simp)⟩,
        fun habs => absurd habs (by simp)⟩
      rintro ⟨sh, hsh, -⟩
      exact absurd hsh (List.not_mem_nil _)
  · intro h rest hcons
    rw [hcons] at hp
    rw [markdownImport_sections_shape_cons ext path markdown metadata ex
      h rest hcons hp]
    cases hemp : emptylines (splitLines markdown) 0 h.position.start.line with
    | true =>
      rw [if_pos (by simp [hemp]), List.nil_append]
      constructor
      · constructor
        · rintro ⟨sh, hsh, hzero⟩
          have := headingTuples_ordinal_pos (splitLines markdown).length
            (h :: rest) 0 sh hsh
          omega
        · intro habs
          exact absurd habs (by simp [hemp])
      · intro habs
        exact absurd habs (by simp [hemp])
    | false =>
      rw [if_neg (by simp [hemp]), List.cons_append]
      refine ⟨?_, fun _ => rfl⟩
      constructor
      · intro _; rfl
      · intro _
        exact ⟨(0, ext.getFileTitle path, 1, ⟨0, h.position.start.line - 1⟩),
          List.mem_cons_self _ _, rfl⟩

/-- Witness for C3 on the concrete document `"intro\n\n# H1\nbody\n"`:
the implicit section exists and is first, with ordinal 0, level 1, the
derived title, and span lines 0–1. -/
theorem c3_witness :
    (∃ sh ∈ (markdownImport toyExt "p".toList ("intro\n\n# H1\nbody\n".toList)
        ⟨[{ heading := "H1".toList, level := 1,
            position := ⟨⟨2, 0, 7⟩, ⟨2, 4, 11⟩⟩ }], [], [], []⟩ false).sections.map
        secShape, sh.1 = 0) ∧
    ((markdownImport toyExt "p".toList ("intro\n\n# H1\nbody\n".toList)
        ⟨[{ heading := "H1".toList, level := 1,
            position := ⟨⟨2, 0, 7⟩, ⟨2, 4, 11⟩⟩ }], [], [], []⟩ false).sections.map
        secShape).head? = some (0, "p".toList, 1, ⟨0, 1⟩) := by
  have h := (c3_implicit_section toyExt "p".toList ("intro\n\n# H1\nbody\n".toList)
    ⟨[{ heading := "H1".toList, level := 1,
        position := ⟨⟨2, 0, 7⟩, ⟨2, 4, 11⟩⟩ }], [], [], []⟩ false
    (by simp)).2 _ [] rfl
  exact ⟨h.1.mpr (by decide), h.2 (by decide)⟩

/-! ## Link routing (C6) -/

theorem addLink_mem_incoming (target : List Link) (incoming : Link) :
    incoming ∈ addLink target incoming := by
  rw [addLink]
  split
  · rename_i h
    simp only [List.any_eq_true, linkEquals, decide_eq_true_eq] at h
    obtain ⟨v, hv, heq⟩ := h
    exact heq ▸ hv
  · exact List.mem_append.mpr (Or.inr (List.mem_singleton.mpr rfl))

theorem addLink_subset (target : List Link) (incoming : Link) :
    ∀ x ∈ target, x ∈ addLink target incoming := by
  intro x hx
  rw [addLink]
  split
  · exact hx
  · exact List.mem_append.mpr (Or.inl hx)

theorem addLink_nodup {target : List Link} (incoming : Link)
    (h : target.Nodup) : (addLink target incoming).Nodup := by
  rw [addLink]
  split
  · exact h
  · rename_i hniq
    simp only [List.any_eq_true, linkEquals, decide_eq_true_eq, not_exists,
      not_and] at hniq
    rw [List.nodup_append]
    refine ⟨h, List.nodup_singleton _, ?_⟩
    intro x hx hx2
    simp only [List.mem_singleton] at hx2
    exact hniq x hx (hx2 ▸ rfl)

theorem btGetPairOrNextLower_mem {V : Type} :
    ∀ {t : Btree V} {k : Nat} {p : Nat × V},
    btGetPairOrNextLower t k = some p → p ∈ t := by
  intro t
  induction t with
  | nil => intro k p h; simp [btGetPairOrNextLower] at h
  | cons q rest ih =>
    intro k p h
    obtain ⟨k', v'⟩ := q
    rw [btGetPairOrNextLower] at h
    split at h
    · split at h
      · rename_i hres
        simp only [Option.some.injEq] at h
        exact List.mem_cons_of_mem _ (ih (h ▸ hres))
      · simp only [Option.some.injEq] at h
        exact h ▸ List.mem_cons_self _ _
    · exact absurd h (by simp)

theorem btGetPairOrNextHigher_mem {V : Type} :
    ∀ {t : Btree V} {k : Nat} {p : Nat × V},
    btGetPairOrNextHigher t k = some p → p ∈ t := by
  intro t
  induction t with
  | nil => intro k p h; simp [btGetPairOrNextHigher] at h
  | cons q rest ih =>
    intro k p h
    obtain ⟨k', v'⟩ := q
    rw [btGetPairOrNextHigher] at h
    split at h
    · simp only [Option.some.injEq] at h
      exact h ▸ List.mem_cons_self _ _
    · exact List.mem_cons_of_mem _ (ih h)

theorem forall₂_lower {V : Type} {R : (Nat × V) → (Nat × V) → Prop}
    (hkey : ∀ p q, R p q → p.1 = q.1) :
    ∀ {t t' : Btree V}, List.Forall₂ R t t' → ∀ (k : Nat),
    (btGetPairOrNextLower t k = none → btGetPairOrNextLower t' k = none) ∧
    (∀ p, btGetPairOrNextLower t k = some p →
      ∃ q, btGetPairOrNextLower t' k = some q ∧ R p q) := by
  intro t t' h
  induction h with
  | nil =>
    exact fun k => ⟨fun _ => rfl,
      fun p hp => absurd hp (by simp [btGetPairOrNextLower])⟩
  | cons hR hrest ih =>
    intro k
    rename_i a b l₁ l₂
    obtain ⟨ka, va⟩ := a
    obtain ⟨kb, vb⟩ := b
    have hab : ka = kb := hkey _ _ hR
    subst hab
    constructor
    · intro hn
      rw [btGetPairOrNextLower] at hn
      rw [btGetPairOrNextLower]
      split at hn
      · rename_i hle
        rw [if_pos hle]
        rcases hres : btGetPairOrNextLower l₁ k with _ | q
        · rw [hres] at hn
          simp at hn
        · rw [hres] at hn
          simp at hn
      · rename_i hgt
        rw [if_neg hgt]
    · intro p hp
      rw [btGetPairOrNextLower] at hp
      rw [btGetPairOrNextLower]
      split at hp
      · rename_i hle
        rw [if_pos hle]
        rcases hres : btGetPairOrNextLower l₁ k with _ | q
        · rw [hres] at hp
          rw [(ih k).1 hres]
          simp only [Option.some.injEq] at hp
          exact ⟨(ka, vb), rfl, hp ▸ hR⟩
        · rw [hres] at hp
          simp only [Option.some.injEq] at hp
          obtain ⟨q', hq', hRq⟩ := (ih k).2 q hres
          rw [hq']
          exact ⟨q', rfl, hp ▸ hRq⟩
      · exact absurd hp (by simp)

theorem forall₂_higher {V : Type} {R : (Nat × V) → (Nat × V) → Prop}
    (hkey : ∀ p q, R p q → p.1 = q.1) :
    ∀ {t t' : Btree V}, List.Forall₂ R t t' → ∀ (k : Nat),
    (∀ p, btGetPairOrNextHigher t k = some p →
      ∃ q, btGetPairOrNextHigher t' k = some q ∧ R p q) := by
  intro t t' h
  induction h with
  | nil => exact fun k p hp => absurd hp (by simp [btGetPairOrNextHigher])
  | cons hR hrest ih =>
    intro k p hp
    rename_i a b l₁ l₂
    obtain ⟨ka, va⟩ := a
    obtain ⟨kb, vb⟩ := b
    have hab : ka = kb := hkey _ _ hR
    subst hab
    rw [btGetPairOrNextHigher] at hp
    rw [btGetPairOrNextHigher]
    split at hp
    · rename_i hle
      rw [if_pos hle]
      simp only [Option.some.injEq] at hp
      exact ⟨(ka, vb), rfl, hp ▸ hR⟩
    · rename_i hgt
      rw [if_neg hgt]
      exact ih k p hp

theorem forall₂_mem {V : Type} {R : (Nat × V) → (Nat × V) → Prop}
    (hkey : ∀ p q, R p q → p.1 = q.1) :
    ∀ {t t' : Btree V}, List.Forall₂ R t t' → ∀ (k : Nat) (v : V),
    (k, v) ∈ t → ∃ v', (k, v') ∈ t' ∧ R (k, v) (k, v') := by
  intro t t' h
  induction h with
  | nil => intro k v hm; simp at hm
  | cons hR hrest ih =>
    intro k v hm
    rename_i a b l₁ l₂
    rcases List.mem_cons.mp hm with heq | hm
    · have hab := hkey a b hR
      rw [← heq] at hR hab
      obtain ⟨kb, vb⟩ := b
      simp only at hab
      subst hab
      exact ⟨vb, List.mem_cons_self _ _, hR⟩
    · obtain ⟨v', hv', hRv⟩ := ih k v hm
      exact ⟨v', List.mem_cons_of_mem _ hv', hRv⟩

theorem btModify_forall₂ {V : Type} {R : (Nat × V) → (Nat × V) → Prop}
    (t : Btree V) (k : Nat) (f : V → V)
    (hmod : ∀ k' v, R (k', v) (k', f v)) (hrefl : ∀ p, R p p) :
    List.Forall₂ R t (btModify t k f) := by
  rw [btModify]
  induction t with
  | nil => exact List.Forall₂.nil
  | cons p rest ih =>
    rw [List.map_cons]
    refine List.Forall₂.cons ?_ ih
    split
    · exact hmod p.1 p.2
    · exact hrefl p

theorem btModify_mem {V : Type} (t : Btree V) (k : Nat) (f : V → V)
    {v : V} (hv : (k, v) ∈ t) : (k, f v) ∈ btModify t k f := by
  rw [btModify]
  have := List.mem_map_of_mem
    (fun p : Nat × V => if p.1 = k then (p.1, f p.2) else p) hv
  simpa using this

theorem btModify_links_nodup {V : Type} (links : V → List Link)
    (t : Btree V) (k : Nat) (f : V → V)
    (hin : ∀ p ∈ t, (links p.2).Nodup)
    (hf : ∀ v, (links v).Nodup → (links (f v)).Nodup) :
    ∀ p ∈ btModify t k f, (links p.2).Nodup := by
  intro p hp
  rw [btModify] at hp
  obtain ⟨q, hq, heq⟩ := List.mem_map.mp hp
  by_cases h : q.1 = k
  · rw [if_pos h] at heq
    rw [← heq]
    exact hf q.2 (hin q hq)
  · rw [if_neg h] at heq
    rw [← heq]
    exact hin q hq

theorem secRel_refl (p : Nat × JsonMarkdownSection) : secRel p p :=
  ⟨rfl, rfl, fun x hx => hx⟩

theorem blkRel_refl (p : Nat × JsonMarkdownBlock) : blkRel p p :=
  ⟨rfl, rfl, fun x hx => hx⟩

theorem secRel_trans {p q r : Nat × JsonMarkdownSection}
    (h1 : secRel p q) (h2 : secRel q r) : secRel p r :=
  ⟨h1.1.trans h2.1, h1.2.1.trans h2.2.1, fun x hx => h2.2.2 x (h1.2.2 x hx)⟩

theorem blkRel_trans {p q r : Nat × JsonMarkdownBlock}
    (h1 : blkRel p q) (h2 : blkRel q r) : blkRel p r :=
  ⟨h1.1.trans h2.1, h1.2.1.trans h2.2.1, fun x hx => h2.2.2 x (h1.2.2 x hx)⟩

theorem forall₂_trans_rel {V : Type} {R : (Nat × V) → (Nat × V) → Prop}
    (htrans : ∀ p q r, R p q → R q r → R p r) :
    ∀ {t1 t2 t3 : Btree V}, List.Forall₂ R t1 t2 → List.Forall₂ R t2 t3 →
    List.Forall₂ R t1 t3 := by
  intro t1 t2 t3 h12
  induction h12 generalizing t3 with
  | nil =>
    intro h23
    cases h23
    exact List.Forall₂.nil
  | cons hR hrest ih =>
    intro h23
    cases h23 with
    | cons hR2 hrest2 => exact List.Forall₂.cons (htrans _ _ _ hR hR2) (ih hrest2)

theorem addLinkToSection_facts (t : Btree JsonMarkdownSection) (line : Nat)
    (link : Link) :
    List.Forall₂ secRel t (addLinkToSection t line link) ∧
    ((∀ p ∈ t, p.2.links.Nodup) →
      ∀ p ∈ addLinkToSection t line link, p.2.links.Nodup) ∧
    (∀ k sec, btGetPairOrNextLower t line = some (k, sec) →
      line ≤ sec.position.stop →
      ∃ sec', (k, sec') ∈ addLinkToSection t line link ∧ link ∈ sec'.links) := by
  refine ⟨?_, ?_, ?_⟩
  · cases hm : btGetPairOrNextLower t line with
    | none =>
      simp only [addLinkToSection, hm]
      exact List.forall₂_same.mpr (fun p _ => secRel_refl p)
    | some sp =>
      by_cases hc : line ≤ sp.2.position.stop
      · simp only [addLinkToSection, hm, if_pos hc]
        exact btModify_forall₂ _ _ _
          (fun k' v => ⟨rfl, rfl, addLink_subset _ _⟩) secRel_refl
      · simp only [addLinkToSection, hm, if_neg hc]
        exact List.forall₂_same.mpr (fun p _ => secRel_refl p)
  · intro hin
    cases hm : btGetPairOrNextLower t line with
    | none =>
      simp only [addLinkToSection, hm]
      exact hin
    | some sp =>
      by_cases hc : line ≤ sp.2.position.stop
      · simp only [addLinkToSection, hm, if_pos hc]
        exact btModify_links_nodup (fun s : JsonMarkdownSection => s.links) _ _ _ hin
          (fun v hv => addLink_nodup _ hv)
      · simp only [addLinkToSection, hm, if_neg hc]
        exact hin
  · intro k sec hm hc
    have hmem := btGetPairOrNextLower_mem hm
    simp only [addLinkToSection, hm, if_pos hc]
    exact ⟨{ sec with links := addLink sec.links link },
      btModify_mem _ _ _ hmem, addLink_mem_incoming _ _⟩

theorem addLinkToBlockLower_facts (t : Btree JsonMarkdownBlock) (line : Nat)
    (link : Link) :
    List.Forall₂ blkRel t (addLinkToBlockLower t line link) ∧
    ((∀ p ∈ t, p.2.links.Nodup) →
      ∀ p ∈ addLinkToBlockLower t line link, p.2.links.Nodup) ∧
    (∀ k b, btGetPairOrNextLower t line = some (k, b) →
      line ≤ b.position.stop →
      ∃ b', (k, b') ∈ addLinkToBlockLower t line link ∧ link ∈ b'.links) := by
  refine ⟨?_, ?_, ?_⟩
  · cases hm : btGetPairOrNextLower t line with
    | none =>
      simp only [addLinkToBlockLower, hm]
      exact List.forall₂_same.mpr (fun p _ => blkRel_refl p)
    | some sp =>
      by_cases hc : line ≤ sp.2.position.stop
      · simp only [addLinkToBlockLower, hm, if_pos hc]
        exact btModify_forall₂ _ _ _
          (fun k' v => ⟨rfl, rfl, addLink_subset _ _⟩) blkRel_refl
      · simp only [addLinkToBlockLower, hm, if_neg hc]
        exact List.forall₂_same.mpr (fun p _ => blkRel_refl p)
  · intro hin
    cases hm : btGetPairOrNextLower t line with
    | none =>
      simp only [addLinkToBlockLower, hm]
      exact hin
    | some sp =>
      by_cases hc : line ≤ sp.2.position.stop
      · simp only [addLinkToBlockLower, hm, if_pos hc]
        exact btModify_links_nodup (fun b : JsonMarkdownBlock => b.links) _ _ _ hin
          (fun v hv => addLink_nodup _ hv)
      · simp only [addLinkToBlockLower, hm, if_neg hc]
        exact hin
  · intro k b hm hc
    have hmem := btGetPairOrNextLower_mem hm
    simp only [addLinkToBlockLower, hm, if_pos hc]
    exact ⟨{ b with links := addLink b.links link },
      btModify_mem _ _ _ hmem, addLink_mem_incoming _ _⟩

theorem addLinkToBlockHigher_facts (t : Btree JsonMarkdownBlock) (line : Nat)
    (link : Link) :
    List.Forall₂ blkRel t (addLinkToBlockHigher t line link) ∧
    ((∀ p ∈ t, p.2.links.Nodup) →
      ∀ p ∈ addLinkToBlockHigher t line link, p.2.links.Nodup) ∧
    (∀ k b, btGetPairOrNextHigher t line = some (k, b) →
      line ≤ b.position.stop →
      ∃ b', (k, b') ∈ addLinkToBlockHigher t line link ∧ link ∈ b'.links) := by
  refine ⟨?_, ?_, ?_⟩
  · cases hm : btGetPairOrNextHigher t line with
    | none =>
      simp only [addLinkToBlockHigher, hm]
      exact List.forall₂_same.mpr (fun p _ => blkRel_refl p)
    | some sp =>
      by_cases hc : line ≤ sp.2.position.stop
      · simp only [addLinkToBlockHigher, hm, if_pos hc]
        exact btModify_forall₂ _ _ _
          (fun k' v => ⟨rfl, rfl, addLink_subset _ _⟩) blkRel_refl
      · simp only [addLinkToBlockHigher, hm, if_neg hc]
        exact List.forall₂_same.mpr (fun p _ => blkRel_refl p)
  · intro hin
    cases hm : btGetPairOrNextHigher t line with
    | none =>
      simp only [addLinkToBlockHigher, hm]
      exact hin
    | some sp =>
      by_cases hc : line ≤ sp.2.position.stop
      · simp only [addLinkToBlockHigher, hm, if_pos hc]
        exact btModify_links_nodup (fun b : JsonMarkdownBlock => b.links) _ _ _ hin
          (fun v hv => addLink_nodup _ hv)
      · simp only [addLinkToBlockHigher, hm, if_neg hc]
        exact hin
  · intro k b hm hc
    have hmem := btGetPairOrNextHigher_mem hm
    simp only [addLinkToBlockHigher, hm, if_pos hc]
    exact ⟨{ b with links := addLink b.links link },
      btModify_mem _ _ _ hmem, addLink_mem_incoming _ _⟩

theorem processLink_step (ext : Ext) (st : LinkState) (ld : LinkCache) :
    (∀ x ∈ st.pageLinks, x ∈ (processLink ext st ld).pageLinks) ∧
    ext.inferLink ld.link none ∈ (processLink ext st ld).pageLinks ∧
    (st.pageLinks.Nodup → (processLink ext st ld).pageLinks.Nodup) ∧
    List.Forall₂ secRel st.sections (processLink ext st ld).sections ∧
    List.Forall₂ blkRel st.blocks (processLink ext st ld).blocks ∧
    ((∀ p ∈ st.sections, p.2.links.Nodup) →
      ∀ p ∈ (processLink ext st ld).sections, p.2.links.Nodup) ∧
    ((∀ p ∈ st.blocks, p.2.links.Nodup) →
      ∀ p ∈ (processLink ext st ld).blocks, p.2.links.Nodup) ∧
    (∀ k sec, btGetPairOrNextLower st.sections ld.position.start.line = some (k, sec) →
      ld.position.start.line ≤ sec.position.stop →
      ∃ sec', (k, sec') ∈ (processLink ext st ld).sections ∧
        ext.inferLink ld.link none ∈ sec'.links) ∧
    (∀ k b, btGetPairOrNextLower st.blocks ld.position.start.line = some (k, b) →
      ld.position.start.line ≤ b.position.stop →
      ∃ b', (k, b') ∈ (processLink ext st ld).blocks ∧
        ext.inferLink ld.link none ∈ b'.links) ∧
    (∀ k b, btGetPairOrNextHigher st.blocks ld.position.start.line = some (k, b) →
      ld.position.start.line ≤ b.position.stop →
      ∃ b', (k, b') ∈ (processLink ext st ld).blocks ∧
        ext.inferLink ld.link none ∈ b'.links) := by
  obtain ⟨hsF, hsN, hsR⟩ := addLinkToSection_facts st.sections
    ld.position.start.line (ext.inferLink ld.link none)
  obtain ⟨hlF, hlN, hlR⟩ := addLinkToBlockLower_facts st.blocks
    ld.position.start.line (ext.inferLink ld.link none)
  obtain ⟨hhF, hhN, hhR⟩ := addLinkToBlockHigher_facts
    (addLinkToBlockLower st.blocks ld.position.start.line (ext.inferLink ld.link none))
    ld.position.start.line (ext.inferLink ld.link none)
  refine ⟨fun x hx => addLink_subset _ _ x hx, addLink_mem_incoming _ _,
    fun h => addLink_nodup _ h, hsF,
    @forall₂_trans_rel _ blkRel (fun _ _ _ h1 h2 => blkRel_trans h1 h2) _ _ _ hlF hhF,
    fun hin => hsN hin, fun hin => hhN (hlN hin), hsR, ?_, ?_⟩
  · intro k b hm hc
    obtain ⟨b', hb', hlink⟩ := hlR k b hm hc
    obtain ⟨b'', hb'', hRb⟩ := forall₂_mem (fun p q hpq => hpq.1) hhF k b' hb'
    exact ⟨b'', hb'', hRb.2.2 _ hlink⟩
  · intro k b hm hc
    obtain ⟨q, hq, hRq⟩ :=
      forall₂_higher (fun p q hpq => hpq.1) hlF ld.position.start.line (k, b) hm
    obtain ⟨kq, bq⟩ := q
    have hk : k = kq := hRq.1
    subst hk
    obtain ⟨b'', hb'', hlink⟩ := hhR k bq hq (hRq.2.1 ▸ hc)
    exact ⟨b'', hb'', hlink⟩

theorem processLinks_invariant (ext : Ext) :
    ∀ (lds : List LinkCache) (st : LinkState),
    (∀ x ∈ st.pageLinks, x ∈ (processLinks ext st lds).pageLinks) ∧
    (st.pageLinks.Nodup → (processLinks ext st lds).pageLinks.Nodup) ∧
    List.Forall₂ secRel st.sections (processLinks ext st lds).sections ∧
    List.Forall₂ blkRel st.blocks (processLinks ext st lds).blocks ∧
    ((∀ p ∈ st.sections, p.2.links.Nodup) →
      ∀ p ∈ (processLinks ext st lds).sections, p.2.links.Nodup) ∧
    ((∀ p ∈ st.blocks, p.2.links.Nodup) →
      ∀ p ∈ (processLinks ext st lds).blocks, p.2.links.Nodup) ∧
    (∀ ld ∈ lds,
      ext.inferLink ld.link none ∈ (processLinks ext st lds).pageLinks ∧
      (∀ k sec, btGetPairOrNextLower st.sections ld.position.start.line = some (k, sec) →
        ld.position.start.line ≤ sec.position.stop →
        ∃ sec', (k, sec') ∈ (processLinks ext st lds).sections ∧
          ext.inferLink ld.link none ∈ sec'.links) ∧
      (∀ k b, btGetPairOrNextLower st.blocks ld.position.start.line = some (k, b) →
        ld.position.start.line ≤ b.position.stop →
        ∃ b', (k, b') ∈ (processLinks ext st lds).blocks ∧
          ext.inferLink ld.link none ∈ b'.links) ∧
      (∀ k b, btGetPairOrNextHigher st.blocks ld.position.start.line = some (k, b) →
        ld.position.start.line ≤ b.position.stop →
        ∃ b', (k, b') ∈ (processLinks ext st lds).blocks ∧
          ext.inferLink ld.link none ∈ b'.links)) := by
  intro lds
  induction lds with
  | nil =>
    intro st
    exact ⟨fun x hx => hx, fun h => h,
      List.forall₂_same.mpr (fun p _ => secRel_refl p),
      List.forall₂_same.mpr (fun p _ => blkRel_refl p),
      fun h => h, fun h => h, fun ld hld => absurd hld (List.not_mem_nil _)⟩
  | cons ld rest ih =>
    intro st
    obtain ⟨sPage, sPageIn, sPageN, sSecF, sBlkF, sSecN, sBlkN, sSecR, sBlkLR, sBlkHR⟩ :=
      processLink_step ext st ld
    obtain ⟨iPage, iPageN, iSecF, iBlkF, iSecN, iBlkN, iRoute⟩ :=
      ih (processLink ext st ld)
    refine ⟨fun x hx => iPage x (sPage x hx),
      fun h => iPageN (sPageN h),
      @forall₂_trans_rel _ secRel (fun _ _ _ h1 h2 => secRel_trans h1 h2) _ _ _ sSecF iSecF,
      @forall₂_trans_rel _ blkRel (fun _ _ _ h1 h2 => blkRel_trans h1 h2) _ _ _ sBlkF iBlkF,
      fun hin => iSecN (sSecN hin),
      fun hin => iBlkN (sBlkN hin), ?_⟩
    intro ld' hld'
    rcases List.mem_cons.mp hld' with heq | hld'
    · subst heq
      refine ⟨iPage _ sPageIn, ?_, ?_, ?_⟩
      · intro k sec hm hc
        obtain ⟨sec', hmem, hlink⟩ := sSecR k sec hm hc
        obtain ⟨sec'', hmem', hR⟩ :=
          forall₂_mem (fun p q hpq => hpq.1) iSecF k sec' hmem
        exact ⟨sec'', hmem', hR.2.2 _ hlink⟩
      · intro k b hm hc
        obtain ⟨b', hmem, hlink⟩ := sBlkLR k b hm hc
        obtain ⟨b'', hmem', hR⟩ :=
          forall₂_mem (fun p q hpq => hpq.1) iBlkF k b' hmem
        exact ⟨b'', hmem', hR.2.2 _ hlink⟩
      · intro k b hm hc
        obtain ⟨b', hmem, hlink⟩ := sBlkHR k b hm hc
        obtain ⟨b'', hmem', hR⟩ :=
          forall₂_mem (fun p q hpq => hpq.1) iBlkF k b' hmem
        exact ⟨b'', hmem', hR.2.2 _ hlink⟩
    · obtain ⟨rPage, rSec, rBlkL, rBlkH⟩ := iRoute ld' hld'
      refine ⟨rPage, ?_, ?_, ?_⟩
      · intro k sec hm hc
        obtain ⟨q, hq, hRq⟩ :=
          (forall₂_lower (fun p q hpq => hpq.1) sSecF ld'.position.start.line).2
            (k, sec) hm
        obtain ⟨kq, secq⟩ := q
        have hk : k = kq := hRq.1
        subst hk
        exact rSec k secq hq (hRq.2.1 ▸ hc)
      · intro k b hm hc
        obtain ⟨q, hq, hRq⟩ :=
          (forall₂_lower (fun p q hpq => hpq.1) sBlkF ld'.position.start.line).2
            (k, b) hm
        obtain ⟨kq, bq⟩ := q
        have hk : k = kq := hRq.1
        subst hk
        exact rBlkL k bq hq (hRq.2.1 ▸ hc)
      · intro k b hm hc
        obtain ⟨q, hq, hRq⟩ :=
          forall₂_higher (fun p q hpq => hpq.1) sBlkF ld'.position.start.line
            (k, b) hm
        obtain ⟨kq, bq⟩ := q
        have hk : k = kq := hRq.1
        subst hk
        exact rBlkH k bq hq (hRq.2.1 ▸ hc)

theorem processFrontmatterLinks_facts (ext : Ext) :
    ∀ (fls : List FrontmatterLinkCache) (pl : List Link),
    (∀ x ∈ pl, x ∈ processFrontmatterLinks ext pl fls) ∧
    (pl.Nodup → (processFrontmatterLinks ext pl fls).Nodup) ∧
    (∀ fl ∈ fls, ext.inferLink fl.link fl.displayText ∈
      processFrontmatterLinks ext pl fls) := by
  intro fls
  induction fls with
  | nil =>
    intro pl
    exact ⟨fun x hx => hx, fun h => h, fun fl hfl => absurd hfl (List.not_mem_nil _)⟩
  | cons fl rest ih =>
    intro pl
    refine ⟨?_, ?_, ?_⟩
    · exact fun x hx =>
        (ih (addLink pl (ext.inferLink fl.link fl.displayText))).1 x
          (addLink_subset _ _ x hx)
    · exact fun h =>
        (ih (addLink pl (ext.inferLink fl.link fl.displayText))).2.1
          (addLink_nodup _ h)
    · intro fl' hfl'
      rcases List.mem_cons.mp hfl' with heq | hfl'
      · subst heq
        exact (ih (addLink pl (ext.inferLink fl'.link fl'.displayText))).1 _
          (addLink_mem_incoming _ _)
      · exact (ih (addLink pl (ext.inferLink fl.link fl.displayText))).2.2 fl' hfl'

/-- C6: starting from a link state whose lists are all duplicate-free (as
they are when `markdownImport` starts the link pass with empty lists), the
body-link pass adds each link occurrence to the page's link list, to the
link list of the section found by at-or-below lookup on its line when that
section's end is at or after the line, to the link list of the block found
by at-or-below lookup, and to the link list of the block found by
at-or-above lookup (each under the same end-condition, the lookups taken on
the state at hand — keys and spans are preserved by the whole pass, so the
initial state's lookups identify the same entries); every insertion is
deduplicated by structural link equality, so no page, section, or block
link list ever contains two structurally equal links.  Frontmatter links
are afterwards added (deduplicated) to the page's link list only: by
definition `processFrontmatterLinks` consumes and produces nothing but the
page list, so no section or block list is touched by them. -/
theorem c6_link_routing (ext : Ext) (st0 : LinkState)
    (lds : List LinkCache) (fls : List FrontmatterLinkCache)
    (hpage : st0.pageLinks.Nodup)
    (hsecs : ∀ p ∈ st0.sections, p.2.links.Nodup)
    (hblocks : ∀ p ∈ st0.blocks, p.2.links.Nodup) :
    (processLinks ext st0 lds).pageLinks.Nodup ∧
    (∀ p ∈ (processLinks ext st0 lds).sections, p.2.links.Nodup) ∧
    (∀ p ∈ (processLinks ext st0 lds).blocks, p.2.links.Nodup) ∧
    (processFrontmatterLinks ext (processLinks ext st0 lds).pageLinks fls).Nodup ∧
    (∀ ld ∈ lds,
      ext.inferLink ld.link none ∈ (processLinks ext st0 lds).pageLinks ∧
      (∀ k sec, btGetPairOrNextLower st0.sections ld.position.start.line = some (k, sec) →
        ld.position.start.line ≤ sec.position.stop →
        ∃ sec', (k, sec') ∈ (processLinks ext st0 lds).sections ∧
          ext.inferLink ld.link none ∈ sec'.links) ∧
      (∀ k b, btGetPairOrNextLower st0.blocks ld.position.start.line = some (k, b) →
        ld.position.start.line ≤ b.position.stop →
        ∃ b', (k, b') ∈ (processLinks ext st0 lds).blocks ∧
          ext.inferLink ld.link none ∈ b'.links) ∧
      (∀ k b, btGetPairOrNextHigher st0.blocks ld.position.start.line = some (k, b) →
        ld.position.start.line ≤ b.position.stop →
        ∃ b', (k, b') ∈ (processLinks ext st0 lds).blocks ∧
          ext.inferLink ld.link none ∈ b'.links)) ∧
    (∀ fl ∈ fls, ext.inferLink fl.link fl.displayText ∈
      processFrontmatterLinks ext (processLinks ext st0 lds).pageLinks fls) := by
  obtain ⟨hPage, hPageN, hSecF, hBlkF, hSecN, hBlkN, hRoute⟩ :=
    processLinks_invariant ext lds st0
  obtain ⟨fmKeep, fmN, fmIn⟩ :=
    processFrontmatterLinks_facts ext fls (processLinks ext st0 lds).pageLinks
  exact ⟨hPageN hpage, hSecN hsecs, hBlkN hblocks, fmN (hPageN hpage),
    hRoute, fmIn⟩

/-- Witness for C6 on a concrete state: one section spanning lines 0–10,
one block spanning lines 3–7, one link occurrence on line 5 — the link
lands in the page list, that section's list, and that block's list. -/
theorem c6_witness :
    (processLinks toyExt
        ⟨[], [(0, ⟨0, "t".toList, 1, ⟨0, 10⟩, [], []⟩)],
          [(3, ⟨1, ⟨3, 7⟩, ⟨⟨3, 0, 12⟩, ⟨7, 0, 50⟩⟩, [], none,
            .generic "paragraph".toList⟩)]⟩
        [⟨"x".toList, ⟨⟨5, 0, 20⟩, ⟨5, 5, 25⟩⟩⟩]).pageLinks.Nodup ∧
    toyExt.inferLink "x".toList none ∈ (processLinks toyExt
        ⟨[], [(0, ⟨0, "t".toList, 1, ⟨0, 10⟩, [], []⟩)],
          [(3, ⟨1, ⟨3, 7⟩, ⟨⟨3, 0, 12⟩, ⟨7, 0, 50⟩⟩, [], none,
            .generic "paragraph".toList⟩)]⟩
        [⟨"x".toList, ⟨⟨5, 0, 20⟩, ⟨5, 5, 25⟩⟩⟩]).pageLinks ∧
    (∃ sec', (0, sec') ∈ (processLinks toyExt
        ⟨[], [(0, ⟨0, "t".toList, 1, ⟨0, 10⟩, [], []⟩)],
          [(3, ⟨1, ⟨3, 7⟩, ⟨⟨3, 0, 12⟩, ⟨7, 0, 50⟩⟩, [], none,
            .generic "paragraph".toList⟩)]⟩
        [⟨"x".toList, ⟨⟨5, 0, 20⟩, ⟨5, 5, 25⟩⟩⟩]).sections ∧
      toyExt.inferLink "x".toList none ∈ sec'.links) ∧
    (∃ b', (3, b') ∈ (processLinks toyExt
        ⟨[], [(0, ⟨0, "t".toList, 1, ⟨0, 10⟩, [], []⟩)],
          [(3, ⟨1, ⟨3, 7⟩, ⟨⟨3, 0, 12⟩, ⟨7, 0, 50⟩⟩, [], none,
            .generic "paragraph".toList⟩)]⟩
        [⟨"x".toList, ⟨⟨5, 0, 20⟩, ⟨5, 5, 25⟩⟩⟩]).blocks ∧
      toyExt.inferLink "x".toList none ∈ b'.links) := by
  have h := c6_link_routing toyExt
    ⟨[], [(0, ⟨0, "t".toList, 1, ⟨0, 10⟩, [], []⟩)],
      [(3, ⟨1, ⟨3, 7⟩, ⟨⟨3, 0, 12⟩, ⟨7, 0, 50⟩⟩, [], none,
        .generic "paragraph".toList⟩)]⟩
    [⟨"x".toList, ⟨⟨5, 0, 20⟩, ⟨5, 5, 25⟩⟩⟩] []
    (by decide) (by decide) (by decide)
  have hr := h.2.2.2.2.1 ⟨"x".toList, ⟨⟨5, 0, 20⟩, ⟨5, 5, 25⟩⟩⟩
    (List.mem_cons_self _ _)
  exact ⟨h.1, hr.1,
    hr.2.1 0 ⟨0, "t".toList, 1, ⟨0, 10⟩, [], []⟩ (by decide) (by decide),
    hr.2.2.1 3 ⟨1, ⟨3, 7⟩, ⟨⟨3, 0, 12⟩, ⟨7, 0, 50⟩⟩, [], none,
      .generic "paragraph".toList⟩ (by decide) (by decide)⟩

end MdIndex
